import Mathlib

/-
Verification development for the declarative schema-change planner and phased
executor, together with the repository fragments that surround it: the
operation-generator registration for `ColumnComment`
(pkg/sql/schemachanger/scplan/internal/opgen/opgen_column_comment.go), the
span-checking storage writer (pkg/kv/kvserver/spanset), and the replication
streaming hook accessors (pkg/sql/streaming).

The planner and executor themselves (scplan / scexec) are not part of the
source tree given here, so they are modelled from the specification; every
such definition carries a doc comment starting with "Modelled from the spec:".
Definitions for the opgen registration, the span-set writer and the streaming
hooks are translated directly from the Go source.
-/

namespace SchemaChanger

/-- Modelled from the spec: the four execution phases, totally ordered as
statement < pre-commit < post-commit-async < validation (spec §4.4). -/
inductive Phase
  | statementPhase
  | preCommitPhase
  | postCommitAsyncPhase
  | validationPhase
  deriving DecidableEq, Repr

/-- Numeric rank of a phase, realising the total order
statement < pre-commit < post-commit-async < validation. -/
def Phase.rank : Phase → Nat
  | .statementPhase => 0
  | .preCommitPhase => 1
  | .postCommitAsyncPhase => 2
  | .validationPhase => 3

/-- Modelled from the spec: element lifecycle statuses (spec §3): `ABSENT`,
`PUBLIC`, `TRANSIENT_ABSENT`, plus the intermediate staged statuses
("write-only", "validated", "backfilled", and delete-only used by drops). -/
inductive Status
  | ABSENT
  | DELETE_ONLY
  | WRITE_ONLY
  | BACKFILLED
  | VALIDATED
  | PUBLIC
  | TRANSIENT_ABSENT
  deriving DecidableEq, Repr

/-- Modelled from the spec: one status-to-status arc of a registered
transition: the destination status, the minimum phase the arc may execute
in, and its revertibility flag (spec §4.3). -/
structure ArcStep where
  dst : Status
  minPhase : Phase
  revertible : Bool
  deriving DecidableEq, Repr

/-- Modelled from the spec: a registered direction of travel for one element
kind: the origin status followed by the consecutive arcs
(A1 → A2 → ... → target, spec §4.3/§4.4). -/
structure TransitionSpec where
  origin : Status
  steps : List ArcStep
  deriving DecidableEq, Repr

/-- Modelled from the spec: the operation-generator entry for one element
kind, keyed by direction of travel: `toPublic` (ABSENT → ... → PUBLIC) and
`toAbsent` (PUBLIC → ... → ABSENT) (spec §4.3). -/
structure Registration where
  toPublic : TransitionSpec
  toAbsent : TransitionSpec
  deriving DecidableEq, Repr

/-- Modelled from the spec: the operation-generator registry, keyed by element
kind; an unregistered kind yields `none` (spec §4.3). -/
abbrev Registry := Nat → Option Registration

/-- Modelled from the spec: a target is an element (identity and kind)
paired with its current status and the desired target status (spec §3). -/
structure Target where
  id : Nat
  kind : Nat
  current : Status
  tgt : Status
  deriving DecidableEq, Repr

/-- Statuses visited by a transition spec, origin first. -/
def specStatuses (sp : TransitionSpec) : List Status :=
  sp.origin :: sp.steps.map (·.dst)

/-- Modelled from the spec: direction of travel selected by the target
status: `toPublic` for PUBLIC targets, `toAbsent` otherwise (ABSENT and
transient targets travel toward absence, spec §4.3). -/
def directionSpec (r : Registration) (tgt : Status) : TransitionSpec :=
  if tgt = Status.PUBLIC then r.toPublic else r.toAbsent

/-- Modelled from the spec: look up the registered arc path for a target,
starting at its current status and ending at its target status. Returns
`none` when the (kind, current-status, target-status) triple has no
registered arc — the `UnregisteredTransition` construction-time error
(spec §4.3/§4.4). A target whose current status already equals its target
status needs no arcs. -/
def findPath (reg : Registry) (t : Target) : Option (List ArcStep) :=
  if t.current = t.tgt then some [] else
    match reg t.kind with
    | none => none
    | some r =>
      match (specStatuses (directionSpec r t.tgt)).findIdx? (· = t.current) with
      | none => none
      | some i =>
        match ((directionSpec r t.tgt).steps.drop i).getLast? with
        | none => none
        | some last =>
          if last.dst = t.tgt then some ((directionSpec r t.tgt).steps.drop i) else none

/-- Modelled from the spec: the planning failure modes surfaced by the Plan
Builder (spec §4.4/§7): a cyclic dependency (with the offending node
identities) or an unregistered (kind, current, target) transition. -/
inductive PlanErr
  | unregisteredTransition (kind : Nat) (current tgt : Status)
  | cyclicDependency (ids : List Nat)
  deriving DecidableEq, Repr

/-- Modelled from the spec: a node of the dependency graph: one
(element, status) step of some target's arc path, carrying the arc's
minimum phase (as a rank) and revertibility (spec §4.4). -/
structure PNode where
  nid : Nat
  elemId : Nat
  dst : Status
  minPhase : Nat
  revertible : Bool
  deriving DecidableEq, Repr

/-- Modelled from the spec: resolve every target's arc path, failing with
`UnregisteredTransition` on the first target with no registered arc
(spec §4.3: "never silently no-op an unplanned transition"). -/
def resolvePaths (reg : Registry) : List Target → Except PlanErr (List (Target × List ArcStep))
  | [] => .ok []
  | t :: ts =>
    match findPath reg t with
    | none => .error (.unregisteredTransition t.kind t.current t.tgt)
    | some p =>
      match resolvePaths reg ts with
      | .error e => .error e
      | .ok rest => .ok ((t, p) :: rest)

/-- Graph nodes for one target's arc path, numbered consecutively from
`off`. -/
def stepNodes (off : Nat) (t : Target) : List ArcStep → List PNode
  | [] => []
  | a :: rest => ⟨off, t.id, a.dst, a.minPhase.rank, a.revertible⟩ :: stepNodes (off + 1) t rest

/-- Modelled from the spec: build the per-target chains of graph nodes,
numbering nodes consecutively across all targets (spec §9: an arena of
elements indexed by stable integer keys). -/
def buildChains : Nat → List (Target × List ArcStep) → List (Target × List PNode)
  | _, [] => []
  | off, (t, steps) :: rest =>
    (t, stepNodes off t steps) :: buildChains (off + steps.length) rest

/-- Consecutive pairs of a list (x0,x1), (x1,x2), ... -/
def consecPairs : List Nat → List (Nat × Nat)
  | [] => []
  | [_] => []
  | a :: b :: rest => (a, b) :: consecPairs (b :: rest)

/-- Modelled from the spec: the intra-element edges, linking the consecutive
arc steps of each target (edge set (a) of spec §4.4). -/
def intraEdges (chains : List (Target × List PNode)) : List (Nat × Nat) :=
  (chains.map (fun c => consecPairs (c.2.map (·.nid)))).flatten

/-- Modelled from the spec: a dependency rule edge relates an
(element identity, status) pair to another: the first must be reached no
later than the second (spec §3/§4.2). -/
abbrev DepRule := (Nat × Status) × (Nat × Status)

/-- Resolve an (element identity, status) reference to a graph node id. -/
def resolveRef (nodes : List PNode) (r : Nat × Status) : Option Nat :=
  (nodes.find? (fun n => n.elemId == r.1 && n.dst == r.2)).map (·.nid)

/-- Modelled from the spec: inter-element edges obtained by resolving the
dependency rules against the graph nodes (edge set (b) of spec §4.4);
rules whose endpoints do not occur in this target set do not apply. -/
def ruleEdges (nodes : List PNode) (rules : List DepRule) : List (Nat × Nat) :=
  rules.filterMap (fun rr =>
    match resolveRef nodes rr.1, resolveRef nodes rr.2 with
    | some a, some b => some (a, b)
    | _, _ => none)

/-- A node has no incoming edge from the remaining nodes. -/
def noIncoming (edges : List (Nat × Nat)) (remaining : List Nat) (v : Nat) : Bool :=
  !(edges.any (fun e => e.2 == v && remaining.contains e.1))

/-- First remaining node with no incoming edge from remaining nodes. -/
def pickSource (edges : List (Nat × Nat)) (remaining : List Nat) : Option Nat :=
  remaining.find? (noIncoming edges remaining)

/-- Modelled from the spec: fuelled Kahn elimination; returns a topological
order of the remaining nodes, or `none` when a dependency cycle blocks
every remaining node (spec §4.4 step 1). -/
def topoAux (edges : List (Nat × Nat)) : Nat → List Nat → Option (List Nat)
  | 0, remaining => if remaining.isEmpty then some [] else none
  | fuel + 1, remaining =>
    match pickSource edges remaining with
    | none => if remaining.isEmpty then some [] else none
    | some v => (topoAux edges fuel (remaining.erase v)).map (v :: ·)

/-- Modelled from the spec: topological sort of the dependency graph;
`none` reports a cyclic dependency (spec §4.4 step 1). -/
def topoSort (edges : List (Nat × Nat)) (ids : List Nat) : Option (List Nat) :=
  topoAux edges ids.length ids

/-- Maximum phase rank over the already-computed predecessors of `v`. -/
def predsMaxPh (edges : List (Nat × Nat)) (phl : List (Nat × Nat)) (v : Nat) : Nat :=
  (edges.filter (fun e => e.2 == v)).foldl (fun m e => max m ((phl.lookup e.1).getD 0)) 0

/-- Modelled from the spec: earliest-feasible-phase computation: walk the
topological order, assigning each node the maximum of its own arc's minimum
phase and the phases of all its predecessors (spec §4.4 step 2). -/
def phasesRec (edges : List (Nat × Nat)) (minPh : Nat → Nat) :
    List Nat → List (Nat × Nat) → List (Nat × Nat)
  | [], acc => acc
  | v :: vs, acc => phasesRec edges minPh vs (acc ++ [(v, max (minPh v) (predsMaxPh edges acc v))])

/-- Phase rank assigned to node `v` by the phase table. -/
def phaseOfL (phl : List (Nat × Nat)) (v : Nat) : Nat :=
  (phl.lookup v).getD 0

/-- Phase ranks that actually occur in the phase table, in increasing order. -/
def presentPhases (phl : List (Nat × Nat)) : List Nat :=
  (List.range 4).filter (fun q => phl.any (fun pr => pr.2 == q))

/-- Modelled from the spec: the stage index of a node is the position of its
phase among the phases present in the plan; stages are one per occupied
phase, in phase order (spec §4.4 step 3). -/
def stageIdxOf (phl : List (Nat × Nat)) (v : Nat) : Nat :=
  (presentPhases phl).indexOf (phaseOfL phl v)

/-- Minimum phase rank of node `v` (looked up among the graph nodes). -/
def minPhOf (nodes : List PNode) (v : Nat) : Nat :=
  ((nodes.find? (fun n => n.nid == v)).map (·.minPhase)).getD 0

/-- Node with id `v`. -/
def nodeAt (nodes : List PNode) (v : Nat) : Option PNode :=
  nodes.find? (fun n => n.nid == v)

/-- Graph nodes listed in topological order. -/
def ordNodes (nodes : List PNode) (ord : List Nat) : List PNode :=
  ord.filterMap (nodeAt nodes)

/-- Modelled from the spec: a Plan: the originating targets, the dependency
graph (nodes and edges), the topological order, the phase table, and the
ordered stages, immutable once built (spec §3/§4.4). -/
structure Plan where
  targets : List Target
  nodes : List PNode
  edges : List (Nat × Nat)
  ord : List Nat
  phl : List (Nat × Nat)
  stages : List (List PNode)
  deriving DecidableEq, Repr, Inhabited

/-- Per-target node chains of the dependency graph. -/
def chainsOf (pts : List (Target × List ArcStep)) : List (Target × List PNode) :=
  buildChains 0 pts

/-- All nodes of the dependency graph, chain by chain. -/
def nodesOf (pts : List (Target × List ArcStep)) : List PNode :=
  ((chainsOf pts).map (·.2)).flatten

/-- Node ids of the dependency graph. -/
def nodeIds (pts : List (Target × List ArcStep)) : List Nat :=
  (nodesOf pts).map (·.nid)

/-- Modelled from the spec: edges of the dependency graph: the union of the
intra-element arc edges and the resolved dependency-rule edges
(spec §4.4). -/
def graphEdges (pts : List (Target × List ArcStep)) (rules : List DepRule) : List (Nat × Nat) :=
  intraEdges (chainsOf pts) ++ ruleEdges (nodesOf pts) rules

/-- Phase table computed along the topological order `ord`. -/
def phlOf (pts : List (Target × List ArcStep)) (rules : List DepRule) (ord : List Nat) :
    List (Nat × Nat) :=
  phasesRec (graphEdges pts rules) (minPhOf (nodesOf pts)) ord []

/-- Modelled from the spec: stages: one per occupied phase in phase order,
each holding its phase's nodes in topological order (spec §4.4 step 3). -/
def stagesOf (pts : List (Target × List ArcStep)) (rules : List DepRule) (ord : List Nat) :
    List (List PNode) :=
  (presentPhases (phlOf pts rules ord)).map
    (fun q => (ordNodes (nodesOf pts) ord).filter
      (fun n => phaseOfL (phlOf pts rules ord) n.nid == q))

/-- The plan assembled from resolved paths and a topological order. -/
def mkPlan (pts : List (Target × List ArcStep)) (rules : List DepRule) (ord : List Nat) : Plan :=
  ⟨pts.map (·.1), nodesOf pts, graphEdges pts rules, ord, phlOf pts rules ord,
   stagesOf pts rules ord⟩

/-- Modelled from the spec: the scheduling part of the Plan Builder: validate
acyclicity (failing with `CyclicDependency`), compute earliest feasible
phases along the topological order, and partition the nodes into stages per
occupied phase, preserving within-phase the topological order
(spec §4.4 steps 1–3). -/
def planFromPaths (rules : List DepRule) (pts : List (Target × List ArcStep)) :
    Except PlanErr Plan :=
  match topoSort (graphEdges pts rules) (nodeIds pts) with
  | none => .error (.cyclicDependency (nodeIds pts))
  | some ord => .ok (mkPlan pts rules ord)

/-- Edges of the dependency graph for a target set; empty when path
resolution fails before the graph exists. -/
def edgesOf (reg : Registry) (rules : List DepRule) (ts : List Target) : List (Nat × Nat) :=
  match resolvePaths reg ts with
  | .error _ => []
  | .ok pts => graphEdges pts rules

/-- Modelled from the spec: the Plan Builder (spec §4.4): resolve every
target's arc path (failing with `UnregisteredTransition`), then build,
validate and schedule the dependency graph. -/
def plan (reg : Registry) (rules : List DepRule) (ts : List Target) : Except PlanErr Plan :=
  match resolvePaths reg ts with
  | .error e => .error e
  | .ok pts => planFromPaths rules pts

/-- Modelled from the spec: the point of no return is the index of the first
stage containing any non-revertible operation; when every operation is
revertible it lies past the last stage (spec §4.4 step 4). -/
def pointOfNoReturn (p : Plan) : Nat :=
  p.stages.findIdx (fun stg => stg.any (fun n => !n.revertible))

/-- Modelled from the spec: states of the Phased Executor
(spec §4.5): `Executing(stage i)`, `Succeeded`, `RollingBack`, `Failed`. -/
inductive EState
  | executing (i : Nat)
  | succeeded
  | rollingBack
  | failed
  deriving DecidableEq, Repr

/-- Modelled from the spec: events observed while a stage executes: the
stage's transaction commits, a failure, or a requested cancellation. -/
inductive EEvent
  | stageSuccess
  | failure
  | cancelRequest
  deriving DecidableEq, Repr

/-- Modelled from the spec: the Phased Executor's transition function
(spec §4.5/§5): a failure strictly before the point of no return switches
to rollback, at or after it the outcome is a terminal failure requiring
attention; a requested cancellation transitions to `RollingBack` if before
the point of no return, else is deferred (execution continues forward);
on success the executor advances to the next stage or succeeds. -/
def execStep (p : Plan) (st : EState) (ev : EEvent) : EState :=
  match st with
  | .executing i =>
    match ev with
    | .stageSuccess => if i + 1 < p.stages.length then .executing (i + 1) else .succeeded
    | .failure => if i < pointOfNoReturn p then .rollingBack else .failed
    | .cancelRequest => if i < pointOfNoReturn p then .rollingBack else .executing i
  | s => s

/-- Modelled from the spec: applying one scheduled operation moves its
element to the arc's destination status (spec §4.5: between stages the
schema is in one of the well-defined intermediate statuses). -/
def applyNode (s : Nat → Status) (n : PNode) : Nat → Status :=
  fun e => if e = n.elemId then n.dst else s e

/-- Modelled from the spec: a stage executes its operations as one atomic
batch (spec §3: a stage is an ordered batch of operations). -/
def applyStage (s : Nat → Status) (stg : List PNode) : Nat → Status :=
  stg.foldl applyNode s

/-- Modelled from the spec: stages execute strictly sequentially (spec §5). -/
def runStages (stgs : List (List PNode)) (s : Nat → Status) : Nat → Status :=
  stgs.foldl applyStage s

/-- Modelled from the spec: the durable checkpoint record: which stage index
has completed (spec §4.5/§6 checkpoint contract). -/
structure Checkpoint where
  doneThrough : Nat
  deriving DecidableEq, Repr

/-- Modelled from the spec: checkpoint saved after stage `k` commits. -/
def saveCheckpoint (k : Nat) : Checkpoint := ⟨k⟩

/-- Modelled from the spec: resumption consumes the same plan and skips the
completed stages: it restarts at the stage after the checkpointed index,
with no replanning (spec §4.5). -/
def resumeStages (p : Plan) (cp : Checkpoint) : List (List PNode) :=
  p.stages.drop (cp.doneThrough + 1)

/-- Modelled from the spec: run the remainder of a plan from a checkpoint. -/
def resumeRun (p : Plan) (cp : Checkpoint) (s : Nat → Status) : Nat → Status :=
  runStages (resumeStages p cp) s

/-- Modelled from the spec: execute stages up to and including stage `k`,
crash after its checkpoint commits, then resume from the checkpoint. -/
def crashRestartRun (p : Plan) (s : Nat → Status) (k : Nat) : Nat → Status :=
  resumeRun p (saveCheckpoint k) (runStages (p.stages.take (k + 1)) s)

/-- Modelled from the spec: one uninterrupted execution of the plan. -/
def fullRun (p : Plan) (s : Nat → Status) : Nat → Status :=
  runStages p.stages s

/-- Modelled from the spec: reversing a target flips PUBLIC ↔ ABSENT and
resolves transient statuses to their rollback-safe counterpart (absence)
(spec §4.5 rollback). -/
def flipTarget : Status → Status
  | .PUBLIC => .ABSENT
  | .ABSENT => .PUBLIC
  | .TRANSIENT_ABSENT => .ABSENT
  | s => s

/-- Modelled from the spec: the reversed target set substituted for rollback:
each element keeps its identity and kind, its current status is the status
reached so far, and its target is flipped (spec §4.5 rollback). -/
def rollbackTargets (ts : List Target) (s : Nat → Status) : List Target :=
  ts.map (fun t => ⟨t.id, t.kind, s t.id, flipTarget t.tgt⟩)

/-- Modelled from the spec: plan, then execute only when planning succeeded;
a planning error is surfaced before any mutation occurs (spec §7). -/
def tryRun (reg : Registry) (rules : List DepRule) (ts : List Target) (s : Nat → Status) :
    (Nat → Status) × Except PlanErr Unit :=
  match plan reg rules ts with
  | .error e => (s, .error e)
  | .ok p => (runStages p.stages s, .ok ())

/-- A dependency cycle: a nonempty edge walk from some node back to itself. -/
def hasCycleSem (edges : List (Nat × Nat)) : Prop :=
  ∃ v w, List.Chain (fun a b => (a, b) ∈ edges) v (w ++ [v])

/-- Every operation of the plan is revertible. -/
@[reducible] def allRevertible (p : Plan) : Prop :=
  ∀ stg ∈ p.stages, ∀ n ∈ stg, n.revertible = true

end SchemaChanger

namespace Opgen

/-- Element payload of `scpb.ColumnComment`: the owning table, the column,
its `pg_attribute` number, and the comment text itself. -/
structure ColumnComment where
  tableId : Nat
  columnId : Nat
  pgAttributeNum : Nat
  comment : String
  deriving DecidableEq, Repr

/-- Operations emitted by the ColumnComment registration: `scop.
RemoveColumnComment` with its three identity fields, and the
not-implemented placeholder emitted on the toPublic arc. -/
inductive Op
  | removeColumnComment (tableId columnId pgAttributeNum : Nat)
  | notImplementedOp
  deriving DecidableEq, Repr

/-- One registered status-to-status arc for ColumnComment: source and
destination statuses, minimum phase, revertibility flag, and the emitted
operation as a function of the element payload. -/
structure OpTransition where
  src : SchemaChanger.Status
  dst : SchemaChanger.Status
  minPhase : SchemaChanger.Phase
  revertible : Bool
  emitOp : ColumnComment → Op

/-- The `toPublic` arc of the ColumnComment registration
(opgen_column_comment.go lines 20–27): ABSENT → PUBLIC, emitting the
not-implemented placeholder. Minimum phase and revertibility carry the
registry defaults (statement phase, revertible), which the source file
leaves unspecified. -/
def columnCommentToPublic : OpTransition :=
  { src := .ABSENT
    dst := .PUBLIC
    minPhase := .statementPhase
    revertible := true
    emitOp := fun _ => .notImplementedOp }

/-- The `toAbsent` arc of the ColumnComment registration
(opgen_column_comment.go lines 28–42): PUBLIC → ABSENT with
`minPhase(scop.PreCommitPhase)`, `revertible(false)` (the source carries a
TODO to remove the revertibility constraint when possible), emitting
`scop.RemoveColumnComment` with the element's TableID, ColumnID and
PgAttributeNum. -/
def columnCommentToAbsent : OpTransition :=
  { src := .PUBLIC
    dst := .ABSENT
    minPhase := .preCommitPhase
    revertible := false
    emitOp := fun c => .removeColumnComment c.tableId c.columnId c.pgAttributeNum }

/-- Both directions registered for ColumnComment by
`opRegistry.register((*scpb.ColumnComment)(nil), ...)`. -/
structure KindRegistration where
  toPublic : OpTransition
  toAbsent : OpTransition

/-- The complete ColumnComment registration (opgen_column_comment.go). -/
def columnCommentRegistration : KindRegistration :=
  { toPublic := columnCommentToPublic
    toAbsent := columnCommentToAbsent }

end Opgen

namespace SpanSetM

/-- Keys of the storage engine, modelled as naturals. -/
abbrev Key := Nat

/-- A `roachpb.Span`: a point key, or a key range [key, endKey). -/
structure KSpan where
  key : Key
  endKey : Option Key
  deriving DecidableEq, Repr

/-- Modelled from the spec: a declared span covers a key when the key equals
the declared point key or falls in the declared range (the span-isolation
layer guarantees "no operation touches data outside its declared access
set", spec §1/§5; the SpanSet.CheckAllowed implementation itself is not
under src/). -/
def spanContainsKey (declared : KSpan) (k : Key) : Bool :=
  match declared.endKey with
  | none => k == declared.key
  | some e => decide (declared.key ≤ k) && decide (k < e)

/-- Modelled from the spec: a declared span covers a requested span when
every key of the request lies inside it. -/
def spanContainsSpan (declared req : KSpan) : Bool :=
  match req.endKey with
  | none => spanContainsKey declared req.key
  | some re =>
    match declared.endKey with
    | none => false
    | some de => decide (declared.key ≤ req.key) && decide (re ≤ de)

/-- The declared access span set of an operation. -/
abbrev SpanSet := List KSpan

/-- Modelled from the spec: `SpanSet.CheckAllowed` / `CheckAllowedAt`
(implementation not under src/): a requested span is allowed when some
declared span covers it; timestamp refinement is not modelled. -/
def checkAllowed (ss : SpanSet) (req : KSpan) : Bool :=
  ss.any (fun d => spanContainsSpan d req)

/-- The write methods of `spanSetWriter` (spanset_batch.go), each with its
target key or key range. -/
inductive WriteOp
  | applyBatchRepr
  | clearMVCC (k : Key)
  | clearUnversioned (k : Key)
  | clearIntent (k : Key)
  | clearEngineKey (k : Key)
  | singleClearEngineKey (k : Key)
  | clearRawRange (s e : Key)
  | clearMVCCRangeAndIntents (s e : Key)
  | clearMVCCRange (s e : Key)
  | clearIterRange (s e : Key)
  | mergeOp (k : Key)
  | putMVCC (k : Key)
  | putUnversioned (k : Key)
  | putIntent (k : Key)
  | putEngineKey (k : Key)
  | logData
  deriving DecidableEq, Repr

/-- Outcome of a write issued through `spanSetWriter`: the underlying engine
write was performed, or the span check returned an error and the engine
write was not performed, or the writer panicked (engine-key methods with a
timestamp-checking writer). -/
inductive WriteOutcome
  | performed
  | blocked
  | panicked
  deriving DecidableEq, Repr

/-- Embedding of `spanSetWriter.checkAllowed` (spanset_batch.go): a
single-key write is checked as the point span {Key: key}; both the
`spansOnly` branch (`CheckAllowed`) and the timestamp branch
(`CheckAllowedAt`) are modelled by the same span-containment check. -/
def writerCheckAllowed (ss : SpanSet) (k : Key) : Bool :=
  checkAllowed ss ⟨k, none⟩

/-- Embedding of `spanSetWriter.checkAllowedRange` (spanset_batch.go). -/
def writerCheckAllowedRange (ss : SpanSet) (s e : Key) : Bool :=
  checkAllowed ss ⟨s, some e⟩

/-- Embedding of the `spanSetWriter` write methods (spanset_batch.go):
`ApplyBatchRepr` passes through (the batch's constructor is assumed to have
bounded it); `SingleClearEngineKey` passes through (lock-table keys are not
in the spans); `LogData` passes through; `ClearEngineKey`/`PutEngineKey`
panic unless the writer is `spansOnly`; every other method checks its key
or key range and returns the span error, without performing the engine
write, when the check fails. -/
def spanSetWriterApply (ss : SpanSet) (spansOnly : Bool) (op : WriteOp) : WriteOutcome :=
  match op with
  | .applyBatchRepr => .performed
  | .clearMVCC k => if writerCheckAllowed ss k then .performed else .blocked
  | .clearUnversioned k => if writerCheckAllowed ss k then .performed else .blocked
  | .clearIntent k => if writerCheckAllowed ss k then .performed else .blocked
  | .clearEngineKey k =>
    if !spansOnly then .panicked
    else if writerCheckAllowed ss k then .performed else .blocked
  | .singleClearEngineKey _ => .performed
  | .clearRawRange s e => if writerCheckAllowedRange ss s e then .performed else .blocked
  | .clearMVCCRangeAndIntents s e =>
    if writerCheckAllowedRange ss s e then .performed else .blocked
  | .clearMVCCRange s e => if writerCheckAllowedRange ss s e then .performed else .blocked
  | .clearIterRange s e => if writerCheckAllowedRange ss s e then .performed else .blocked
  | .mergeOp k => if writerCheckAllowed ss k then .performed else .blocked
  | .putMVCC k => if writerCheckAllowed ss k then .performed else .blocked
  | .putUnversioned k => if writerCheckAllowed ss k then .performed else .blocked
  | .putIntent k => if writerCheckAllowed ss k then .performed else .blocked
  | .putEngineKey k =>
    if !spansOnly then .panicked
    else if writerCheckAllowed ss k then .performed else .blocked
  | .logData => .performed

/-- Write methods that check their target span before writing; the
deliberate pass-throughs (`ApplyBatchRepr`, `SingleClearEngineKey`,
`LogData`) are excluded. -/
def isCheckedWrite : WriteOp → Bool
  | .applyBatchRepr => false
  | .singleClearEngineKey _ => false
  | .logData => false
  | _ => true

/-- Engine-key write methods, which support only span-only checking. -/
def isEngineKeyWrite : WriteOp → Bool
  | .clearEngineKey _ => true
  | .putEngineKey _ => true
  | _ => false

/-- Target span of a write method, when it has one. -/
def reqSpan : WriteOp → Option KSpan
  | .applyBatchRepr => none
  | .clearMVCC k => some ⟨k, none⟩
  | .clearUnversioned k => some ⟨k, none⟩
  | .clearIntent k => some ⟨k, none⟩
  | .clearEngineKey k => some ⟨k, none⟩
  | .singleClearEngineKey k => some ⟨k, none⟩
  | .clearRawRange s e => some ⟨s, some e⟩
  | .clearMVCCRangeAndIntents s e => some ⟨s, some e⟩
  | .clearMVCCRange s e => some ⟨s, some e⟩
  | .clearIterRange s e => some ⟨s, some e⟩
  | .mergeOp k => some ⟨k, none⟩
  | .putMVCC k => some ⟨k, none⟩
  | .putUnversioned k => some ⟨k, none⟩
  | .putIntent k => some ⟨k, none⟩
  | .putEngineKey k => some ⟨k, none⟩
  | .logData => none

end SpanSetM

namespace StreamingM

/-- The evaluation context handed to the replication hooks
(`*tree.EvalContext` in pkg/sql/streaming). -/
structure EvalContext where
  ctxId : Nat
  deriving DecidableEq, Repr

/-- Result of a manager accessor (pkg/sql/streaming): the hook's own result
(a manager or the hook's error, opaque here), the accessor's
`errors.New` error with its message, or the runtime panic from invoking a
nil hook function. -/
inductive HookOutcome (α : Type)
  | managerResult (a : α)
  | errorResult (msg : String)
  | nilFuncPanic
  deriving DecidableEq, Repr

/-- Invocation of an optional hook function: calling a nil Go function
panics at runtime. -/
def invokeHook {α : Type} (h : Option (EvalContext → α)) (ctx : EvalContext) : HookOutcome α :=
  match h with
  | none => .nilFuncPanic
  | some f => .managerResult (f ctx)

/-- Embedding of `GetReplicationStreamManager` (pkg/sql/streaming): returns
the CCL error when `GetReplicationStreamManagerHook` is nil, else invokes
that hook. -/
def getReplicationStreamManager {α : Type}
    (replHook : Option (EvalContext → α)) (ctx : EvalContext) : HookOutcome α :=
  match replHook with
  | none => .errorResult "replication streaming requires a CCL binary"
  | some h => .managerResult (h ctx)

/-- Embedding of `GetStreamIngestManager` (pkg/sql/streaming): the nil check
is performed on `GetReplicationStreamManagerHook`, and when that hook is
non-nil, `GetStreamIngestManagerHook` is invoked unconditionally. -/
def getStreamIngestManager {α : Type}
    (replHook ingestHook : Option (EvalContext → α)) (ctx : EvalContext) : HookOutcome α :=
  match replHook with
  | none => .errorResult "replication streaming requires a CCL binary"
  | some _ => invokeHook ingestHook ctx

end StreamingM

namespace SchemaChanger

/-- Concrete two-arc registry used to evaluate the planner on small inputs. -/
def wReg : Registry := fun k =>
  if k = 0 then
    some {
      toPublic := { origin := .ABSENT, steps := [
        ⟨.WRITE_ONLY, .statementPhase, true⟩,
        ⟨.PUBLIC, .preCommitPhase, true⟩ ] }
      toAbsent := { origin := .PUBLIC, steps := [
        ⟨.WRITE_ONLY, .statementPhase, true⟩,
        ⟨.ABSENT, .preCommitPhase, true⟩ ] } }
  else none

/-- Concrete target set: element 1 is added, element 2 is dropped. -/
def wTs : List Target :=
  [⟨1, 0, .ABSENT, .PUBLIC⟩, ⟨2, 0, .PUBLIC, .ABSENT⟩]

/-- The plan built for `wTs`. -/
def wPlanned : Plan :=
  match plan wReg [] wTs with
  | .ok p => p
  | .error _ => default

/-- Start state agreeing with the current statuses of `wTs`. -/
def wS0 : Nat → Status :=
  fun e => if e = 1 then .ABSENT else if e = 2 then .PUBLIC else .ABSENT

/-- State reached by executing the first stage of the plan for `wTs`. -/
def wSmid : Nat → Status := runStages (wPlanned.stages.take 1) wS0

/-- Reversed target set for rolling back from `wSmid`. -/
def wRbTs : List Target := rollbackTargets wTs wSmid

/-- The rollback plan built from the reversed target set. -/
def wRbPlan : Plan :=
  match plan wReg [] wRbTs with
  | .ok p => p
  | .error _ => default

/-- Contradictory rule pair that forms a dependency cycle over `wTs`. -/
def cycRules : List DepRule :=
  [((1, .PUBLIC), (2, .ABSENT)), ((2, .ABSENT), (1, .PUBLIC))]

/-- Concrete plan whose second stage holds a non-revertible operation. -/
def c3plan : Plan :=
  ⟨[], [], [], [], [], [[⟨0, 0, .WRITE_ONLY, 0, true⟩], [⟨1, 0, .ABSENT, 1, false⟩]]⟩

end SchemaChanger

namespace SchemaChanger

theorem findIdx_all_before {α : Type} (p : α → Bool) :
    ∀ (l : List α) (k : Nat), k < l.findIdx p → ∀ x, l[k]? = some x → p x = false := by
  intro l
  induction l with
  | nil => intro k hk x hx; simp at hx
  | cons a l ih =>
    intro k hk x hx
    rw [List.findIdx_cons] at hk
    by_cases hpa : p a
    · rw [hpa, cond_true] at hk; omega
    · rw [Bool.not_eq_true] at hpa
      rw [hpa, cond_false] at hk
      cases k with
      | zero =>
        simp only [List.getElem?_cons_zero, Option.some.injEq] at hx
        rw [← hx]
        exact hpa
      | succ k =>
        simp only [List.getElem?_cons_succ] at hx
        exact ih k (by omega) x hx

/-- C3: the Phased Executor never switches to rollback at or after the point
of no return — the first stage containing any non-revertible operation
(every stage strictly before it is all-revertible): a failure or requested
cancellation at or after that stage never yields `RollingBack`, while a
cancellation strictly before it transitions the executor to `RollingBack`. -/
theorem executor_no_rollback_after_ponr (p : Plan) (i : Nat) :
    (∀ k, k < pointOfNoReturn p → ∀ stg, p.stages[k]? = some stg →
      ∀ n ∈ stg, n.revertible = true) ∧
    (pointOfNoReturn p ≤ i → ∀ ev, execStep p (.executing i) ev ≠ .rollingBack) ∧
    (i < pointOfNoReturn p → execStep p (.executing i) .cancelRequest = .rollingBack) := by
  refine ⟨?_, ?_, ?_⟩
  · intro k hk stg hstg n hn
    have hk' : k < p.stages.findIdx (fun stg => stg.any (fun n => !n.revertible)) := hk
    have h := findIdx_all_before (fun stg => stg.any (fun n => !n.revertible)) p.stages k hk' stg hstg
    simp only [List.any_eq_false] at h
    have := h n hn
    simpa using this
  · intro hle ev
    cases ev with
    | stageSuccess =>
      simp only [execStep]
      split <;> simp
    | failure =>
      simp only [execStep]
      rw [if_neg (by omega)]
      simp
    | cancelRequest =>
      simp only [execStep]
      rw [if_neg (by omega)]
      simp
  · intro hlt
    simp only [execStep]
    rw [if_pos hlt]

theorem executor_no_rollback_after_ponr_witness :
    (pointOfNoReturn c3plan ≤ 1 ∧
      execStep c3plan (.executing 1) .failure ≠ .rollingBack) ∧
    (0 < pointOfNoReturn c3plan ∧
      execStep c3plan (.executing 0) .cancelRequest = .rollingBack) :=
  ⟨⟨by decide, (executor_no_rollback_after_ponr c3plan 1).2.1 (by decide) .failure⟩,
   ⟨by decide, (executor_no_rollback_after_ponr c3plan 0).2.2 (by decide)⟩⟩

/-- C5: executing a plan, crashing after stage k commits its checkpoint, and
resuming from that checkpoint yields the same final schema state as one
uninterrupted execution; the resumed run consumes exactly the stages after
index k of the same plan (stage k+1 onward), with no replanning and no
re-execution of completed stages. -/
theorem crash_resume_equiv (p : Plan) (s : Nat → Status) (k : Nat) :
    crashRestartRun p s k = fullRun p s ∧
    ∀ j, (resumeStages p (saveCheckpoint k))[j]? = p.stages[k + 1 + j]? := by
  constructor
  · show runStages (p.stages.drop (k + 1)) (runStages (p.stages.take (k + 1)) s) =
      runStages p.stages s
    rw [runStages, runStages, runStages, ← List.foldl_append, List.take_append_drop]
  · intro j
    exact List.getElem?_drop p.stages (k + 1) j

end SchemaChanger

namespace Opgen

/-- C6 counterexample: the claim asserts that the ColumnComment
PUBLIC → ABSENT arc carries a revertible flag (it discards no data
irreversibly), but the registration marks it `revertible(false)`. -/
theorem columnComment_toAbsent_revertible_cex :
    ¬ (columnCommentRegistration.toAbsent.revertible = true) := by
  decide

/-- C6 (amended): the ColumnComment PUBLIC → ABSENT arc is registered with
minimum phase pre-commit and is marked non-revertible (`revertible(false)`,
with a source TODO to remove the revertibility constraint when possible),
even though it merely removes a comment. -/
theorem columnComment_toAbsent_marked_nonrevertible :
    columnCommentRegistration.toAbsent.src = SchemaChanger.Status.PUBLIC ∧
    columnCommentRegistration.toAbsent.dst = SchemaChanger.Status.ABSENT ∧
    columnCommentRegistration.toAbsent.minPhase = SchemaChanger.Phase.preCommitPhase ∧
    columnCommentRegistration.toAbsent.revertible = false :=
  ⟨rfl, rfl, rfl, rfl⟩

/-- C8: the operation emitted for the ColumnComment PUBLIC → ABSENT arc is a
pure function of the element payload: it is a RemoveColumnComment whose
TableID, ColumnID and PgAttributeNum equal exactly the element's fields,
and any two elements agreeing on those fields yield the same operation
(no other input affects the result). -/
theorem removeColumnComment_pure_projection :
    (∀ c : ColumnComment,
      columnCommentRegistration.toAbsent.emitOp c =
        Op.removeColumnComment c.tableId c.columnId c.pgAttributeNum) ∧
    (∀ c c' : ColumnComment, c.tableId = c'.tableId → c.columnId = c'.columnId →
      c.pgAttributeNum = c'.pgAttributeNum →
      columnCommentRegistration.toAbsent.emitOp c =
        columnCommentRegistration.toAbsent.emitOp c') := by
  constructor
  · intro c; rfl
  · intro c c' h1 h2 h3
    show Op.removeColumnComment c.tableId c.columnId c.pgAttributeNum =
      Op.removeColumnComment c'.tableId c'.columnId c'.pgAttributeNum
    rw [h1, h2, h3]

theorem removeColumnComment_pure_projection_witness :
    columnCommentRegistration.toAbsent.emitOp ⟨1, 2, 3, "a comment"⟩ =
      columnCommentRegistration.toAbsent.emitOp ⟨1, 2, 3, "another comment"⟩ :=
  removeColumnComment_pure_projection.2 ⟨1, 2, 3, "a comment"⟩ ⟨1, 2, 3, "another comment"⟩
    rfl rfl rfl

end Opgen

namespace SpanSetM

/-- C7 counterexample: `SingleClearEngineKey` is issued through the
span-checking writer with key 5, outside the declared set {[10, 20)}, yet
the underlying engine write is performed and no error is returned (the
method deliberately passes through, since single clear is only used for
the lock table). -/
theorem singleClearEngineKey_bypasses_spans_cex :
    checkAllowed [⟨10, some 20⟩] ⟨5, none⟩ = false ∧
    spanSetWriterApply [⟨10, some 20⟩] true (.singleClearEngineKey 5) = .performed := by
  constructor
  · decide
  · rfl

/-- C7 (amended): every write method that checks its target span — all of
them except the deliberate pass-throughs `ApplyBatchRepr`,
`SingleClearEngineKey` and `LogData` — and, for the engine-key methods,
when issued through a span-only writer, is performed exactly when its
target key or key range lies inside the declared access span set, and
otherwise returns an error without performing the underlying engine
write. -/
theorem checked_writes_respect_spans (ss : SpanSet) (so : Bool) (op : WriteOp) (r : KSpan)
    (hc : isCheckedWrite op = true) (he : isEngineKeyWrite op = true → so = true)
    (hr : reqSpan op = some r) :
    (checkAllowed ss r = true → spanSetWriterApply ss so op = .performed) ∧
    (checkAllowed ss r = false → spanSetWriterApply ss so op = .blocked) := by
  cases op <;>
    first
    | exact Bool.noConfusion hc
    | (have hso : so = true := he rfl
       subst hso
       injection hr with hr
       subst hr
       refine ⟨fun hck => ?_, fun hck => ?_⟩ <;>
         simp [spanSetWriterApply, writerCheckAllowed, writerCheckAllowedRange, hck])
    | (injection hr with hr
       subst hr
       refine ⟨fun hck => ?_, fun hck => ?_⟩ <;>
         simp [spanSetWriterApply, writerCheckAllowed, writerCheckAllowedRange, hck])

theorem checked_writes_respect_spans_witness :
    checkAllowed [⟨10, some 20⟩] ⟨12, none⟩ = true ∧
    spanSetWriterApply [⟨10, some 20⟩] true (.putMVCC 12) = .performed :=
  ⟨by decide,
   (checked_writes_respect_spans [⟨10, some 20⟩] true (.putMVCC 12) ⟨12, none⟩
      rfl (fun h => by simp [isEngineKeyWrite] at h) rfl).1 (by decide)⟩

end SpanSetM

namespace StreamingM

/-- C10: `GetStreamIngestManager` returns the error "replication streaming
requires a CCL binary" exactly when `GetReplicationStreamManagerHook` is
nil (even if `GetStreamIngestManagerHook` is set), and with a non-nil
`GetReplicationStreamManagerHook` it invokes `GetStreamIngestManagerHook`
unconditionally. -/
theorem getStreamIngestManager_gated_on_replication_hook {α : Type}
    (replHook ingestHook : Option (EvalContext → α)) (ctx : EvalContext) :
    (getStreamIngestManager replHook ingestHook ctx =
        .errorResult "replication streaming requires a CCL binary" ↔ replHook = none) ∧
    (replHook.isSome = true →
      getStreamIngestManager replHook ingestHook ctx = invokeHook ingestHook ctx) := by
  cases replHook <;> cases ingestHook <;>
    simp [getStreamIngestManager, invokeHook]

theorem getStreamIngestManager_gated_witness :
    (Option.some (fun _ : EvalContext => (5 : Nat))).isSome = true ∧
    getStreamIngestManager (some (fun _ : EvalContext => (5 : Nat))) none ⟨0⟩ =
      invokeHook (none : Option (EvalContext → Nat)) ⟨0⟩ :=
  ⟨rfl,
   (getStreamIngestManager_gated_on_replication_hook
      (some (fun _ : EvalContext => (5 : Nat))) none ⟨0⟩).2 rfl⟩

end StreamingM

namespace SchemaChanger

theorem resolvePaths_err_shape (reg : Registry) :
    ∀ (ts : List Target) (e : PlanErr), resolvePaths reg ts = .error e →
      ∃ k c g, e = .unregisteredTransition k c g := by
  intro ts
  induction ts with
  | nil => intro e h; cases h
  | cons t ts ih =>
    intro e h
    unfold resolvePaths at h
    cases hf : findPath reg t with
    | none =>
      rw [hf] at h
      refine ⟨t.kind, t.current, t.tgt, ?_⟩
      injection h with h2
      exact h2.symm
    | some p =>
      rw [hf] at h
      cases hr : resolvePaths reg ts with
      | error e' =>
        rw [hr] at h
        injection h with h2
        obtain ⟨k, c, g, hshape⟩ := ih e' hr
        exact ⟨k, c, g, h2 ▸ hshape⟩
      | ok rest =>
        rw [hr] at h
        cases h

theorem resolvePaths_err_of_unreg (reg : Registry) :
    ∀ (ts : List Target) (t : Target), t ∈ ts → findPath reg t = none →
      ∃ k c g, resolvePaths reg ts = .error (.unregisteredTransition k c g) := by
  intro ts
  induction ts with
  | nil => intro t ht; intro _; cases ht
  | cons t0 ts ih =>
    intro t ht hf
    unfold resolvePaths
    cases hf0 : findPath reg t0 with
    | none => exact ⟨t0.kind, t0.current, t0.tgt, rfl⟩
    | some p =>
      have ht' : t ∈ ts := by
        cases List.mem_cons.mp ht with
        | inl h => subst h; rw [hf] at hf0; cases hf0
        | inr h => exact h
      obtain ⟨k, c, g, hr⟩ := ih t ht' hf
      rw [hr]
      exact ⟨k, c, g, rfl⟩

theorem resolvePaths_ok_of_allReg (reg : Registry) :
    ∀ (ts : List Target), (∀ t ∈ ts, (findPath reg t).isSome = true) →
      ∃ pts, resolvePaths reg ts = .ok pts := by
  intro ts
  induction ts with
  | nil => intro _; exact ⟨[], rfl⟩
  | cons t0 ts ih =>
    intro h
    have h0 := h t0 (List.mem_cons_self t0 ts)
    cases hf : findPath reg t0 with
    | none => rw [hf] at h0; cases h0
    | some p =>
      obtain ⟨pts, hr⟩ := ih (fun t ht => h t (List.mem_cons_of_mem t0 ht))
      refine ⟨(t0, p) :: pts, ?_⟩
      unfold resolvePaths
      rw [hf, hr]

theorem consecPairs_mem : ∀ (l : List Nat) (a b : Nat), (a, b) ∈ consecPairs l →
    a ∈ l ∧ b ∈ l := by
  intro l
  induction l with
  | nil => intro a b h; cases h
  | cons x l ih =>
    intro a b h
    cases l with
    | nil => cases h
    | cons y l' =>
      rw [consecPairs] at h
      rcases List.mem_cons.mp h with h1 | h2
      · obtain ⟨rfl, rfl⟩ := Prod.mk.injEq .. ▸ h1
        exact ⟨List.mem_cons_self _ _, List.mem_cons_of_mem _ (List.mem_cons_self _ _)⟩
      · have := ih a b h2
        exact ⟨List.mem_cons_of_mem _ this.1, List.mem_cons_of_mem _ this.2⟩

theorem mem_nodeIds_of_mem_chain (pts : List (Target × List ArcStep)) (c : Target × List PNode)
    (hc : c ∈ chainsOf pts) (x : Nat) (hx : x ∈ c.2.map (·.nid)) : x ∈ nodeIds pts := by
  obtain ⟨n, hn, rfl⟩ := List.mem_map.mp hx
  apply List.mem_map_of_mem
  rw [nodesOf, List.mem_flatten]
  exact ⟨c.2, List.mem_map_of_mem _ hc, hn⟩

theorem graphEdges_mem_ids (pts : List (Target × List ArcStep)) (rules : List DepRule) :
    ∀ e ∈ graphEdges pts rules, e.1 ∈ nodeIds pts ∧ e.2 ∈ nodeIds pts := by
  intro e he
  rcases List.mem_append.mp he with hin | hrl
  · rw [intraEdges, List.mem_flatten] at hin
    obtain ⟨prs, hprs, hepr⟩ := hin
    obtain ⟨c, hc, rfl⟩ := List.mem_map.mp hprs
    have := consecPairs_mem _ e.1 e.2 hepr
    exact ⟨mem_nodeIds_of_mem_chain pts c hc e.1 this.1,
           mem_nodeIds_of_mem_chain pts c hc e.2 this.2⟩
  · rw [ruleEdges, List.mem_filterMap] at hrl
    obtain ⟨rr, _, hres⟩ := hrl
    cases h1 : resolveRef (nodesOf pts) rr.1 with
    | none => rw [h1] at hres; cases hres
    | some a =>
      cases h2 : resolveRef (nodesOf pts) rr.2 with
      | none => rw [h1, h2] at hres; cases hres
      | some b =>
        rw [h1, h2] at hres
        injection hres with hres
        subst hres
        rw [resolveRef] at h1 h2
        constructor
        · cases hf1 : List.find? (fun n => n.elemId == rr.1.1 && n.dst == rr.1.2) (nodesOf pts) with
          | none => rw [hf1] at h1; cases h1
          | some n =>
            rw [hf1] at h1
            injection h1 with h1
            rw [← h1]
            exact List.mem_map_of_mem _ (List.mem_of_find?_eq_some hf1)
        · cases hf2 : List.find? (fun n => n.elemId == rr.2.1 && n.dst == rr.2.2) (nodesOf pts) with
          | none => rw [hf2] at h2; cases h2
          | some n =>
            rw [hf2] at h2
            injection h2 with h2
            rw [← h2]
            exact List.mem_map_of_mem _ (List.mem_of_find?_eq_some hf2)

theorem topoAux_zero (edges : List (Nat × Nat)) (rem : List Nat) :
    topoAux edges 0 rem = if rem.isEmpty then some [] else none := by
  unfold topoAux
  rfl

theorem topoAux_succ_nopick (edges : List (Nat × Nat)) (fuel : Nat) (rem : List Nat)
    (hp : pickSource edges rem = none) :
    topoAux edges (fuel + 1) rem = if rem.isEmpty then some [] else none := by
  unfold topoAux
  rw [hp]

theorem topoAux_succ_pick (edges : List (Nat × Nat)) (fuel : Nat) (rem : List Nat) (v : Nat)
    (hp : pickSource edges rem = some v) :
    topoAux edges (fuel + 1) rem = (topoAux edges fuel (rem.erase v)).map (v :: ·) := by
  conv_lhs => rw [topoAux]
  rw [hp]

theorem plan_ok_resolve (reg : Registry) (rules : List DepRule) (ts : List Target)
    (pts : List (Target × List ArcStep)) (h : resolvePaths reg ts = .ok pts) :
    plan reg rules ts = planFromPaths rules pts := by
  unfold plan
  rw [h]

theorem plan_err_resolve (reg : Registry) (rules : List DepRule) (ts : List Target)
    (e : PlanErr) (h : resolvePaths reg ts = .error e) :
    plan reg rules ts = .error e := by
  unfold plan
  rw [h]

theorem planFromPaths_none (rules : List DepRule) (pts : List (Target × List ArcStep))
    (h : topoSort (graphEdges pts rules) (nodeIds pts) = none) :
    planFromPaths rules pts = .error (.cyclicDependency (nodeIds pts)) := by
  unfold planFromPaths
  rw [h]

theorem planFromPaths_some (rules : List DepRule) (pts : List (Target × List ArcStep))
    (ord : List Nat) (h : topoSort (graphEdges pts rules) (nodeIds pts) = some ord) :
    planFromPaths rules pts = .ok (mkPlan pts rules ord) := by
  unfold planFromPaths
  rw [h]

theorem topoAux_perm (edges : List (Nat × Nat)) :
    ∀ (fuel : Nat) (rem ord : List Nat), topoAux edges fuel rem = some ord → rem.Perm ord := by
  intro fuel
  induction fuel with
  | zero =>
    intro rem ord h
    rw [topoAux_zero] at h
    by_cases he : rem.isEmpty
    · rw [if_pos he] at h
      injection h with h
      rw [List.isEmpty_iff.mp he, ← h]
    · rw [if_neg he] at h
      cases h
  | succ fuel ih =>
    intro rem ord h
    cases hpick : pickSource edges rem with
    | none =>
      rw [topoAux_succ_nopick edges fuel rem hpick] at h
      by_cases he : rem.isEmpty
      · rw [if_pos he] at h
        injection h with h
        rw [List.isEmpty_iff.mp he, ← h]
      · rw [if_neg he] at h
        cases h
    | some v =>
      rw [topoAux_succ_pick edges fuel rem v hpick] at h
      cases hrec : topoAux edges fuel (rem.erase v) with
      | none => rw [hrec] at h; cases h
      | some ord' =>
        rw [hrec, Option.map_some'] at h
        injection h with h
        have hv : v ∈ rem := List.mem_of_find?_eq_some hpick
        have hperm : rem.Perm (v :: rem.erase v) := List.perm_cons_erase hv
        rw [← h]
        exact hperm.trans ((ih (rem.erase v) ord' hrec).cons v)

theorem topoAux_indexOf_lt (edges : List (Nat × Nat)) :
    ∀ (fuel : Nat) (rem ord : List Nat), topoAux edges fuel rem = some ord →
      ∀ a b, (a, b) ∈ edges → a ∈ rem → b ∈ rem →
        ord.indexOf a < ord.indexOf b := by
  intro fuel
  induction fuel with
  | zero =>
    intro rem ord h a b he ha hb
    rw [topoAux_zero] at h
    by_cases hemp : rem.isEmpty
    · rw [List.isEmpty_iff.mp hemp] at ha
      cases ha
    · rw [if_neg hemp] at h
      cases h
  | succ fuel ih =>
    intro rem ord h a b he ha hb
    cases hpick : pickSource edges rem with
    | none =>
      rw [topoAux_succ_nopick edges fuel rem hpick] at h
      by_cases hemp : rem.isEmpty
      · rw [List.isEmpty_iff.mp hemp] at ha
        cases ha
      · rw [if_neg hemp] at h
        cases h
    | some v =>
      rw [topoAux_succ_pick edges fuel rem v hpick] at h
      cases hrec : topoAux edges fuel (rem.erase v) with
      | none => rw [hrec] at h; cases h
      | some ord' =>
        rw [hrec, Option.map_some'] at h
        injection h with h
        have hnoin : noIncoming edges rem v = true := List.find?_some hpick
        have hnoin' : ∀ e ∈ edges, ¬(e.2 = v ∧ e.1 ∈ rem) := by
          unfold noIncoming at hnoin
          rw [Bool.not_eq_true', List.any_eq_false] at hnoin
          intro e hee hcon
          have hx := hnoin e hee
          apply hx
          rw [Bool.and_eq_true]
          refine ⟨beq_iff_eq.mpr hcon.1, ?_⟩
          simpa using hcon.2
        have hbv : b ≠ v := by
          intro hbveq
          exact hnoin' (a, b) he ⟨hbveq, ha⟩
        rw [← h]
        by_cases hav : a = v
        · subst hav
          rw [List.indexOf_cons_self]
          rw [List.indexOf_cons_ne _ (fun hh => hbv hh.symm)]
          exact Nat.succ_pos _
        · have ha' : a ∈ rem.erase v := (List.mem_erase_of_ne hav).mpr ha
          have hb' : b ∈ rem.erase v := (List.mem_erase_of_ne hbv).mpr hb
          have hlt := ih (rem.erase v) ord' hrec a b he ha' hb'
          rw [List.indexOf_cons_ne _ (fun hh => hav hh.symm),
              List.indexOf_cons_ne _ (fun hh => hbv hh.symm)]
          exact Nat.succ_lt_succ hlt

theorem topo_chain_lt (edges : List (Nat × Nat)) (ids ord : List Nat)
    (h : topoSort edges ids = some ord)
    (hmem : ∀ e ∈ edges, e.1 ∈ ids ∧ e.2 ∈ ids) :
    ∀ (l : List Nat) (a : Nat), List.Chain (fun x y => (x, y) ∈ edges) a l → l ≠ [] →
      ord.indexOf a < ord.indexOf (l.getLastD a) := by
  intro l
  induction l with
  | nil => intro a _ hne; exact absurd rfl hne
  | cons b l' ih =>
    intro a hch _
    rw [List.chain_cons] at hch
    obtain ⟨hab, hch'⟩ := hch
    have h1 : ord.indexOf a < ord.indexOf b :=
      topoAux_indexOf_lt edges ids.length ids ord h a b hab (hmem _ hab).1 (hmem _ hab).2
    rw [List.getLastD_cons]
    cases l' with
    | nil => simpa using h1
    | cons c l'' =>
      exact lt_trans h1 (ih b hch' (by simp))

theorem topoSort_no_cycle (edges : List (Nat × Nat)) (ids ord : List Nat)
    (h : topoSort edges ids = some ord)
    (hmem : ∀ e ∈ edges, e.1 ∈ ids ∧ e.2 ∈ ids) : ¬ hasCycleSem edges := by
  rintro ⟨v, w, hch⟩
  have := topo_chain_lt edges ids ord h hmem (w ++ [v]) v hch (by simp)
  rw [List.getLastD_concat] at this
  exact lt_irrefl _ this

/-- C2: `plan(targets)` fails with `CyclicDependency` whenever the dependency
graph over (element, target-status) nodes contains a cycle (all transitions
being registered so that the graph exists), fails with
`UnregisteredTransition` whenever some (kind, current, target) triple has
no registered arc, and in every error case the error is surfaced before
any mutation occurs: no state is changed and nothing is executed, so an
unregistered transition is never executed as a silent no-op. -/
theorem plan_error_surfaced (reg : Registry) (rules : List DepRule) (ts : List Target) :
    ((∀ t ∈ ts, (findPath reg t).isSome = true) → hasCycleSem (edgesOf reg rules ts) →
      ∃ ids, plan reg rules ts = .error (.cyclicDependency ids)) ∧
    ((∃ t ∈ ts, findPath reg t = none) →
      ∃ k c g, plan reg rules ts = .error (.unregisteredTransition k c g)) ∧
    (∀ e s, plan reg rules ts = .error e →
      (tryRun reg rules ts s).1 = s ∧ (tryRun reg rules ts s).2 = .error e) := by
  refine ⟨?_, ?_, ?_⟩
  · intro hreg hcyc
    obtain ⟨pts, hres⟩ := resolvePaths_ok_of_allReg reg ts hreg
    have hedges : edgesOf reg rules ts = graphEdges pts rules := by
      unfold edgesOf
      rw [hres]
    rw [hedges] at hcyc
    refine ⟨nodeIds pts, ?_⟩
    rw [plan_ok_resolve reg rules ts pts hres]
    cases htopo : topoSort (graphEdges pts rules) (nodeIds pts) with
    | none => exact planFromPaths_none rules pts htopo
    | some ord =>
      exact absurd hcyc (topoSort_no_cycle _ _ _ htopo (graphEdges_mem_ids pts rules))
  · rintro ⟨t, ht, hf⟩
    obtain ⟨k, c, g, hr⟩ := resolvePaths_err_of_unreg reg ts t ht hf
    exact ⟨k, c, g, plan_err_resolve reg rules ts _ hr⟩
  · intro e s h
    unfold tryRun
    rw [h]
    exact ⟨rfl, rfl⟩

theorem plan_error_surfaced_witness :
    ((∀ t ∈ wTs, (findPath wReg t).isSome = true) ∧
      (∃ ids, plan wReg cycRules wTs = .error (.cyclicDependency ids))) ∧
    (∃ k c g, plan wReg [] [⟨3, 1, .ABSENT, .PUBLIC⟩] =
      .error (.unregisteredTransition k c g)) :=
  ⟨⟨by decide,
    (plan_error_surfaced wReg cycRules wTs).1 (by decide)
      ⟨1, [3], List.Chain.cons (by decide) (List.Chain.cons (by decide) List.Chain.nil)⟩⟩,
   (plan_error_surfaced wReg [] [⟨3, 1, .ABSENT, .PUBLIC⟩]).2.1
     ⟨⟨3, 1, .ABSENT, .PUBLIC⟩, List.mem_cons_self _ _, by decide⟩⟩

end SchemaChanger

namespace SchemaChanger

theorem lookup_eq_none_keys : ∀ (A : List (Nat × Nat)) (v : Nat),
    v ∉ A.map (·.1) → A.lookup v = none := by
  intro A
  induction A with
  | nil => intro v _; rfl
  | cons p A ih =>
    intro v hv
    have h1 : v ≠ p.1 := fun h => hv (h ▸ List.mem_map_of_mem _ (List.mem_cons_self p A))
    have : (v == p.1) = false := beq_eq_false_iff_ne.mpr h1
    rw [show p = (p.1, p.2) from rfl, List.lookup_cons, this]
    exact ih v (fun h => hv (List.mem_cons_of_mem _ h))

theorem lookup_some_of_mem_keys : ∀ (A : List (Nat × Nat)) (v : Nat),
    v ∈ A.map (·.1) → ∃ b, A.lookup v = some b := by
  intro A
  induction A with
  | nil => intro v hv; cases hv
  | cons p A ih =>
    intro v hv
    by_cases h1 : v = p.1
    · refine ⟨p.2, ?_⟩
      rw [show p = (p.1, p.2) from rfl, List.lookup_cons, beq_iff_eq.mpr h1]
    · have : v ∈ A.map (·.1) := by
        rcases List.mem_map.mp hv with ⟨q, hq, hqv⟩
        rcases List.mem_cons.mp hq with h | h
        · exact absurd (hqv ▸ h ▸ rfl) h1
        · exact hqv ▸ List.mem_map_of_mem _ h
      obtain ⟨b, hb⟩ := ih v this
      refine ⟨b, ?_⟩
      rw [show p = (p.1, p.2) from rfl, List.lookup_cons, beq_eq_false_iff_ne.mpr h1]
      exact hb

theorem lookup_some_mem : ∀ (A : List (Nat × Nat)) (v b : Nat),
    A.lookup v = some b → (v, b) ∈ A := by
  intro A
  induction A with
  | nil => intro v b h; cases h
  | cons p A ih =>
    intro v b h
    rw [show p = (p.1, p.2) from rfl, List.lookup_cons] at h
    by_cases h1 : v = p.1
    · rw [beq_iff_eq.mpr h1] at h
      injection h with h
      rw [h1, ← h]
      exact List.mem_cons_self _ _
    · rw [beq_eq_false_iff_ne.mpr h1] at h
      exact List.mem_cons_of_mem _ (ih v b h)

theorem foldl_max_ge_start {α : Type} (g : α → Nat) :
    ∀ (l : List α) (s : Nat), s ≤ l.foldl (fun m x => max m (g x)) s := by
  intro l
  induction l with
  | nil => intro s; exact le_refl s
  | cons a l ih => intro s; exact le_trans (le_max_left s (g a)) (ih (max s (g a)))

theorem foldl_max_ge_elem {α : Type} (g : α → Nat) :
    ∀ (l : List α) (s : Nat) (e : α), e ∈ l → g e ≤ l.foldl (fun m x => max m (g x)) s := by
  intro l
  induction l with
  | nil => intro s e he; cases he
  | cons a l ih =>
    intro s e he
    rcases List.mem_cons.mp he with h | h
    · subst h
      exact le_trans (le_max_right s (g e)) (foldl_max_ge_start g l _)
    · exact ih _ e h

theorem foldl_max_le {α : Type} (g : α → Nat) :
    ∀ (l : List α) (s c : Nat), s ≤ c → (∀ e ∈ l, g e ≤ c) →
      l.foldl (fun m x => max m (g x)) s ≤ c := by
  intro l
  induction l with
  | nil => intro s c hs _; exact hs
  | cons a l ih =>
    intro s c hs h
    exact ih _ c (max_le hs (h a (List.mem_cons_self a l)))
      (fun e he => h e (List.mem_cons_of_mem _ he))

theorem foldl_max_congr {α : Type} (g1 g2 : α → Nat) :
    ∀ (l : List α) (s : Nat), (∀ e ∈ l, g1 e = g2 e) →
      l.foldl (fun m x => max m (g1 x)) s = l.foldl (fun m x => max m (g2 x)) s := by
  intro l
  induction l with
  | nil => intro s _; rfl
  | cons a l ih =>
    intro s h
    show List.foldl _ (max s (g1 a)) l = List.foldl _ (max s (g2 a)) l
    rw [h a (List.mem_cons_self a l)]
    exact ih _ (fun e he => h e (List.mem_cons_of_mem _ he))

theorem phasesRec_keys (edges : List (Nat × Nat)) (minPh : Nat → Nat) :
    ∀ (l : List Nat) (acc : List (Nat × Nat)),
      (phasesRec edges minPh l acc).map (·.1) = acc.map (·.1) ++ l := by
  intro l
  induction l with
  | nil => intro acc; simp [phasesRec]
  | cons v vs ih =>
    intro acc
    rw [phasesRec, ih, List.map_append]
    simp

theorem phasesRec_ext (edges : List (Nat × Nat)) (minPh : Nat → Nat) :
    ∀ (l : List Nat) (acc : List (Nat × Nat)),
      ∃ ext, phasesRec edges minPh l acc = acc ++ ext := by
  intro l
  induction l with
  | nil => intro acc; exact ⟨[], (List.append_nil acc).symm⟩
  | cons v vs ih =>
    intro acc
    obtain ⟨ext, hext⟩ := ih (acc ++ [(v, max (minPh v) (predsMaxPh edges acc v))])
    rw [phasesRec, hext, List.append_assoc]
    exact ⟨_, rfl⟩

theorem phasesRec_decomp (edges : List (Nat × Nat)) (minPh : Nat → Nat) :
    ∀ (l : List Nat) (acc : List (Nat × Nat)) (v : Nat), v ∈ l →
      ∃ A B, phasesRec edges minPh l acc =
          A ++ (v, max (minPh v) (predsMaxPh edges A v)) :: B ∧
        A.map (·.1) = acc.map (·.1) ++ l.takeWhile (fun x => !(x == v)) := by
  intro l
  induction l with
  | nil => intro acc v hv; cases hv
  | cons v0 vs ih =>
    intro acc v hv
    by_cases hv0 : v0 = v
    · subst hv0
      obtain ⟨ext, hext⟩ := phasesRec_ext edges minPh vs
        (acc ++ [(v0, max (minPh v0) (predsMaxPh edges acc v0))])
      refine ⟨acc, ext, ?_, ?_⟩
      · rw [phasesRec, hext, List.append_assoc]
        rfl
      · rw [List.takeWhile_cons]
        simp
    · have hvvs : v ∈ vs := by
        rcases List.mem_cons.mp hv with h | h
        · exact absurd h.symm hv0
        · exact h
      obtain ⟨A, B, hAB, hkeys⟩ :=
        ih (acc ++ [(v0, max (minPh v0) (predsMaxPh edges acc v0))]) v hvvs
      refine ⟨A, B, ?_, ?_⟩
      · rw [phasesRec, hAB]
      · rw [hkeys, List.takeWhile_cons, if_pos (by simpa using hv0), List.map_append]
        simp

theorem phasesRec_values_le (edges : List (Nat × Nat)) (minPh : Nat → Nat)
    (hmin : ∀ v, minPh v ≤ 3) :
    ∀ (l : List Nat) (acc : List (Nat × Nat)), (∀ p ∈ acc, p.2 ≤ 3) →
      ∀ p ∈ phasesRec edges minPh l acc, p.2 ≤ 3 := by
  intro l
  induction l with
  | nil => intro acc hacc p hp; exact hacc p hp
  | cons v vs ih =>
    intro acc hacc p hp
    rw [phasesRec] at hp
    refine ih _ ?_ p hp
    intro q hq
    rcases List.mem_append.mp hq with h | h
    · exact hacc q h
    · have : q = (v, max (minPh v) (predsMaxPh edges acc v)) := by simpa using h
      rw [this]
      refine max_le (hmin v) ?_
      refine foldl_max_le _ _ 0 3 (by omega) ?_
      intro e _
      cases hlk : acc.lookup e.1 with
      | none => simp [hlk]
      | some b =>
        have := hacc (e.1, b) (lookup_some_mem acc e.1 b hlk)
        simpa [hlk] using this

theorem indexOf_lt_mem_takeWhile : ∀ (l : List Nat) (u v : Nat), u ∈ l →
    l.indexOf u < l.indexOf v → u ∈ l.takeWhile (fun x => !(x == v)) := by
  intro l
  induction l with
  | nil => intro u v hu; cases hu
  | cons h t ih =>
    intro u v hu hlt
    by_cases hhv : h = v
    · subst hhv
      rw [List.indexOf_cons_self] at hlt
      omega
    · rw [List.takeWhile_cons, if_pos (by simpa using hhv)]
      by_cases hhu : h = u
      · exact hhu ▸ List.mem_cons_self _ _
      · have hu' : u ∈ t := by
          rcases List.mem_cons.mp hu with h1 | h1
          · exact absurd h1.symm hhu
          · exact h1
        rw [List.indexOf_cons_ne _ hhu, List.indexOf_cons_ne _ hhv] at hlt
        exact List.mem_cons_of_mem _ (ih u v hu' (by omega))

end SchemaChanger

namespace SchemaChanger

theorem phaseOf_fixpoint (edges : List (Nat × Nat)) (minPh : Nat → Nat) (ord : List Nat)
    (hbefore : ∀ e ∈ edges, ord.indexOf e.1 < ord.indexOf e.2) :
    ∀ v ∈ ord, phaseOfL (phasesRec edges minPh ord []) v =
      max (minPh v) (predsMaxPh edges (phasesRec edges minPh ord []) v) := by
  intro v hv
  obtain ⟨A, B, hdec, hkeys⟩ := phasesRec_decomp edges minPh ord [] v hv
  rw [List.map_nil, List.nil_append] at hkeys
  have hvA : v ∉ A.map (·.1) := by
    rw [hkeys]
    intro hmem
    have := List.mem_takeWhile_imp hmem
    simp at this
  have hlookA : A.lookup v = none := lookup_eq_none_keys A v hvA
  have hcong : predsMaxPh edges A v = predsMaxPh edges (phasesRec edges minPh ord []) v := by
    unfold predsMaxPh
    apply foldl_max_congr
    intro e he
    have he' := List.mem_filter.mp he
    have hev : e.2 = v := by simpa using he'.2
    have hlt := hbefore e he'.1
    rw [hev] at hlt
    have hu_mem : e.1 ∈ ord := by
      rw [← List.indexOf_lt_length]
      calc ord.indexOf e.1 < ord.indexOf v := hlt
        _ ≤ ord.length := List.indexOf_le_length
    have huA : e.1 ∈ A.map (·.1) := by
      rw [hkeys]
      exact indexOf_lt_mem_takeWhile ord e.1 v hu_mem hlt
    obtain ⟨b, hb⟩ := lookup_some_of_mem_keys A e.1 huA
    rw [hdec, List.lookup_append, hb]
    rfl
  have hlook : (phasesRec edges minPh ord []).lookup v =
      some (max (minPh v) (predsMaxPh edges A v)) := by
    rw [hdec, List.lookup_append, hlookA, Option.none_or, List.lookup_cons]
    simp
  show (List.lookup v (phasesRec edges minPh ord [])).getD 0 = _
  rw [hlook, Option.getD_some, hcong]

theorem phase_le_of_edge (edges : List (Nat × Nat)) (minPh : Nat → Nat) (ord : List Nat)
    (hbefore : ∀ e ∈ edges, ord.indexOf e.1 < ord.indexOf e.2)
    (hmemE : ∀ e ∈ edges, e.1 ∈ ord ∧ e.2 ∈ ord) :
    ∀ e ∈ edges, phaseOfL (phasesRec edges minPh ord []) e.1 ≤
      phaseOfL (phasesRec edges minPh ord []) e.2 := by
  intro e he
  have hfix := phaseOf_fixpoint edges minPh ord hbefore e.2 (hmemE e he).2
  rw [hfix]
  refine le_trans ?_ (le_max_right _ _)
  have hmemf : e ∈ edges.filter (fun x => x.2 == e.2) :=
    List.mem_filter.mpr ⟨he, by simp⟩
  unfold predsMaxPh phaseOfL
  exact foldl_max_ge_elem
    (fun x => ((phasesRec edges minPh ord []).lookup x.1).getD 0) _ 0 e hmemf

theorem phase_rank_le_three : ∀ ph : Phase, ph.rank ≤ 3 := by
  intro ph
  cases ph <;> simp [Phase.rank]

theorem stepNodes_minPhase_le (off : Nat) (t : Target) (steps : List ArcStep) :
    ∀ n ∈ stepNodes off t steps, n.minPhase ≤ 3 := by
  induction steps generalizing off with
  | nil => intro n hn; cases hn
  | cons a rest ih =>
    intro n hn
    rcases List.mem_cons.mp hn with h | h
    · rw [h]
      exact phase_rank_le_three _
    · exact ih (off + 1) n h

theorem buildChains_chain_shape :
    ∀ (pts : List (Target × List ArcStep)) (off : Nat) (c : Target × List PNode),
      c ∈ buildChains off pts → ∃ off2 steps, c.2 = stepNodes off2 c.1 steps := by
  intro pts
  induction pts with
  | nil => intro off c hc; cases hc
  | cons q rest ih =>
    intro off c hc
    obtain ⟨t, steps⟩ := q
    simp only [buildChains] at hc
    rcases List.mem_cons.mp hc with h | h
    · subst h
      exact ⟨off, steps, rfl⟩
    · exact ih (off + steps.length) c h

theorem nodesOf_minPhase_le (pts : List (Target × List ArcStep)) :
    ∀ n ∈ nodesOf pts, n.minPhase ≤ 3 := by
  intro n hn
  rw [nodesOf, List.mem_flatten] at hn
  obtain ⟨blk, hblk, hnb⟩ := hn
  obtain ⟨c, hc, rfl⟩ := List.mem_map.mp hblk
  obtain ⟨off2, steps, hshape⟩ := buildChains_chain_shape pts 0 c hc
  rw [hshape] at hnb
  exact stepNodes_minPhase_le off2 c.1 steps n hnb

theorem minPhOf_le (nodes : List PNode) (hn : ∀ n ∈ nodes, n.minPhase ≤ 3) (v : Nat) :
    minPhOf nodes v ≤ 3 := by
  unfold minPhOf
  cases hf : nodes.find? (fun n => n.nid == v) with
  | none => simp
  | some n => simpa using hn n (List.mem_of_find?_eq_some hf)

theorem phaseOfL_le_three (pts : List (Target × List ArcStep)) (rules : List DepRule)
    (ord : List Nat) (v : Nat) : phaseOfL (phlOf pts rules ord) v ≤ 3 := by
  unfold phaseOfL phlOf
  cases hlk : (phasesRec (graphEdges pts rules) (minPhOf (nodesOf pts)) ord []).lookup v with
  | none => simp
  | some b =>
    have hmem := lookup_some_mem _ v b hlk
    have := phasesRec_values_le (graphEdges pts rules) (minPhOf (nodesOf pts))
      (minPhOf_le _ (nodesOf_minPhase_le pts)) ord [] (by intro q hq; cases hq) (v, b) hmem
    simpa [hlk] using this

theorem presentPhases_sorted (phl : List (Nat × Nat)) :
    (presentPhases phl).Pairwise (· < ·) :=
  List.Pairwise.sublist (List.filter_sublist _) (List.pairwise_lt_range 4)

theorem phase_mem_presentPhases (pts : List (Target × List ArcStep)) (rules : List DepRule)
    (ord : List Nat) (v : Nat) (hv : v ∈ (phlOf pts rules ord).map (·.1)) :
    phaseOfL (phlOf pts rules ord) v ∈ presentPhases (phlOf pts rules ord) := by
  obtain ⟨b, hb⟩ := lookup_some_of_mem_keys _ v hv
  have hble : b ≤ 3 := by
    have := phaseOfL_le_three pts rules ord v
    unfold phaseOfL at this
    rw [hb] at this
    simpa using this
  have hmem : (v, b) ∈ phlOf pts rules ord := lookup_some_mem _ v b hb
  show phaseOfL (phlOf pts rules ord) v ∈
    (List.range 4).filter (fun q => (phlOf pts rules ord).any (fun pr => pr.2 == q))
  unfold phaseOfL
  rw [hb, Option.getD_some, List.mem_filter]
  refine ⟨List.mem_range.mpr (by omega), ?_⟩
  rw [List.any_eq_true]
  exact ⟨(v, b), hmem, by simp⟩

theorem indexOf_mono_sorted : ∀ (l : List Nat), l.Pairwise (· < ·) →
    ∀ q q', q ∈ l → q' ∈ l → q ≤ q' → l.indexOf q ≤ l.indexOf q' := by
  intro l
  induction l with
  | nil => intro _ q q' hq; intro hq' hle; cases hq
  | cons a t ih =>
    intro hp q q' hq hq' hle
    have hp' := List.pairwise_cons.mp hp
    by_cases hqa : q = a
    · subst hqa
      rw [List.indexOf_cons_self]
      omega
    · have hqt : q ∈ t := (List.mem_cons.mp hq).resolve_left hqa
      have haq : a < q := hp'.1 q hqt
      have hq'a : q' ≠ a := by
        intro h
        subst h
        omega
      have hq't : q' ∈ t := (List.mem_cons.mp hq').resolve_left hq'a
      rw [List.indexOf_cons_ne _ (fun h => hqa h.symm),
          List.indexOf_cons_ne _ (fun h => hq'a h.symm)]
      exact Nat.succ_le_succ (ih hp'.2 q q' hqt hq't hle)

theorem stepNodes_nids (off : Nat) (t : Target) (steps : List ArcStep) :
    (stepNodes off t steps).map (·.nid) = List.range' off steps.length := by
  induction steps generalizing off with
  | nil => rfl
  | cons a rest ih =>
    rw [stepNodes, List.map_cons, ih (off + 1), List.length_cons, List.range'_succ]

theorem buildChains_nids : ∀ (pts : List (Target × List ArcStep)) (off : Nat),
    (((buildChains off pts).map (·.2)).flatten).map (·.nid) =
      List.range' off ((pts.map (fun p => p.2.length)).sum) := by
  intro pts
  induction pts with
  | nil => intro off; simp [buildChains]
  | cons q rest ih =>
    intro off
    obtain ⟨t, steps⟩ := q
    simp only [buildChains, List.map_cons, List.flatten_cons, List.sum_cons]
    rw [List.map_append, stepNodes_nids, ih (off + steps.length)]
    have happ := List.range'_append off steps.length ((rest.map (fun p => p.2.length)).sum) 1
    simp only [one_mul] at happ
    rw [happ, Nat.add_comm]

theorem nodeIds_eq_range (pts : List (Target × List ArcStep)) :
    nodeIds pts = List.range ((pts.map (fun p => p.2.length)).sum) := by
  rw [nodeIds, nodesOf, chainsOf, buildChains_nids pts 0, List.range_eq_range']

theorem nodeIds_nodup (pts : List (Target × List ArcStep)) : (nodeIds pts).Nodup := by
  rw [nodeIds_eq_range]
  exact List.nodup_range _

theorem nodeAt_self : ∀ (l : List PNode), (l.map (·.nid)).Nodup → ∀ n ∈ l,
    l.find? (fun m => m.nid == n.nid) = some n := by
  intro l
  induction l with
  | nil => intro _ n hn; cases hn
  | cons m rest ih =>
    intro hnd n hn
    rw [List.map_cons, List.nodup_cons] at hnd
    rcases List.mem_cons.mp hn with h | h
    · subst h
      have hpred : (n.nid == n.nid) = true := by simp
      rw [List.find?_cons, hpred]
    · have hne : m.nid ≠ n.nid := by
        intro he
        exact hnd.1 (he ▸ List.mem_map_of_mem _ h)
      have hpred : (m.nid == n.nid) = false := beq_eq_false_iff_ne.mpr hne
      rw [List.find?_cons, hpred]
      exact ih hnd.2 n h

theorem minPhOf_self (pts : List (Target × List ArcStep)) (n : PNode)
    (hn : n ∈ nodesOf pts) : minPhOf (nodesOf pts) n.nid = n.minPhase := by
  have hnodup : ((nodesOf pts).map (·.nid)).Nodup := nodeIds_nodup pts
  unfold minPhOf
  rw [nodeAt_self (nodesOf pts) hnodup n hn]
  simp

theorem plan_ok_inv (reg : Registry) (rules : List DepRule) (ts : List Target) (p : Plan)
    (h : plan reg rules ts = .ok p) :
    ∃ pts ord, resolvePaths reg ts = .ok pts ∧
      topoSort (graphEdges pts rules) (nodeIds pts) = some ord ∧
      p = mkPlan pts rules ord := by
  cases hres : resolvePaths reg ts with
  | error e =>
    rw [plan_err_resolve reg rules ts e hres] at h
    cases h
  | ok pts =>
    rw [plan_ok_resolve reg rules ts pts hres] at h
    cases htopo : topoSort (graphEdges pts rules) (nodeIds pts) with
    | none =>
      rw [planFromPaths_none rules pts htopo] at h
      cases h
    | some ord =>
      rw [planFromPaths_some rules pts ord htopo] at h
      injection h with h
      exact ⟨pts, ord, rfl, htopo, h.symm⟩

theorem plan_edge_before (pts : List (Target × List ArcStep)) (rules : List DepRule)
    (ord : List Nat) (htopo : topoSort (graphEdges pts rules) (nodeIds pts) = some ord) :
    ∀ e ∈ graphEdges pts rules, ord.indexOf e.1 < ord.indexOf e.2 := by
  intro e he
  have hm := graphEdges_mem_ids pts rules e he
  exact topoAux_indexOf_lt _ _ _ _ htopo e.1 e.2 he hm.1 hm.2

theorem phlOf_keys (pts : List (Target × List ArcStep)) (rules : List DepRule)
    (ord : List Nat) : (phlOf pts rules ord).map (·.1) = ord := by
  rw [phlOf, phasesRec_keys]
  simp

/-- C1: in every plan produced by the Plan Builder, for every dependency edge
(A → B) of the scheduled graph, the phase assigned to A is at most the
phase assigned to B (phases totally ordered statement < pre-commit <
post-commit-async < validation, realised by their ranks), and B's stage
index is at least A's; moreover each node's phase equals the maximum of its
own arc's minimum phase and the phases of all its predecessors. -/
theorem plan_phase_stage_monotone (reg : Registry) (rules : List DepRule) (ts : List Target)
    (p : Plan) (h : plan reg rules ts = .ok p) :
    (∀ e ∈ p.edges, phaseOfL p.phl e.1 ≤ phaseOfL p.phl e.2 ∧
      stageIdxOf p.phl e.1 ≤ stageIdxOf p.phl e.2) ∧
    (∀ n ∈ p.nodes, phaseOfL p.phl n.nid =
      max n.minPhase (predsMaxPh p.edges p.phl n.nid)) := by
  obtain ⟨pts, ord, hres, htopo, rfl⟩ := plan_ok_inv reg rules ts p h
  have hbefore := plan_edge_before pts rules ord htopo
  have hperm : (nodeIds pts).Perm ord := topoAux_perm _ _ _ _ htopo
  have hmemE : ∀ e ∈ graphEdges pts rules, e.1 ∈ ord ∧ e.2 ∈ ord := by
    intro e' he'
    have hm' := graphEdges_mem_ids pts rules e' he'
    exact ⟨hperm.mem_iff.mp hm'.1, hperm.mem_iff.mp hm'.2⟩
  constructor
  · intro e he
    have hple := phase_le_of_edge (graphEdges pts rules) (minPhOf (nodesOf pts)) ord
      hbefore hmemE e he
    refine ⟨hple, ?_⟩
    have h1m := phase_mem_presentPhases pts rules ord e.1
      (by rw [phlOf_keys]; exact (hmemE e he).1)
    have h2m := phase_mem_presentPhases pts rules ord e.2
      (by rw [phlOf_keys]; exact (hmemE e he).2)
    exact indexOf_mono_sorted _ (presentPhases_sorted _) _ _ h1m h2m hple
  · intro n hn
    have hnid : n.nid ∈ ord := hperm.mem_iff.mp (List.mem_map_of_mem _ hn)
    have hfix := phaseOf_fixpoint (graphEdges pts rules) (minPhOf (nodesOf pts)) ord
      hbefore n.nid hnid
    rw [minPhOf_self pts n hn] at hfix
    exact hfix

theorem plan_phase_stage_monotone_witness :
    phaseOfL wPlanned.phl 0 ≤ phaseOfL wPlanned.phl 1 ∧
    stageIdxOf wPlanned.phl 0 ≤ stageIdxOf wPlanned.phl 1 :=
  (plan_phase_stage_monotone wReg [] wTs wPlanned rfl).1 (0, 1) (by decide)

end SchemaChanger

namespace SchemaChanger

theorem resolvePaths_fst (reg : Registry) :
    ∀ (ts : List Target) (pts : List (Target × List ArcStep)),
      resolvePaths reg ts = .ok pts → pts.map (·.1) = ts := by
  intro ts
  induction ts with
  | nil =>
    intro pts h
    injection h with h
    rw [← h]
    rfl
  | cons t rest ih =>
    intro pts h
    unfold resolvePaths at h
    cases hf : findPath reg t with
    | none => rw [hf] at h; cases h
    | some p =>
      rw [hf] at h
      cases hr : resolvePaths reg rest with
      | error e => rw [hr] at h; cases h
      | ok prest =>
        rw [hr] at h
        injection h with h
        rw [← h, List.map_cons, ih prest hr]

theorem resolvePaths_mem_findPath (reg : Registry) :
    ∀ (ts : List Target) (pts : List (Target × List ArcStep)),
      resolvePaths reg ts = .ok pts → ∀ q ∈ pts, findPath reg q.1 = some q.2 := by
  intro ts
  induction ts with
  | nil =>
    intro pts h q hq
    injection h with h
    rw [← h] at hq
    cases hq
  | cons t rest ih =>
    intro pts h q hq
    unfold resolvePaths at h
    cases hf : findPath reg t with
    | none => rw [hf] at h; cases h
    | some p =>
      rw [hf] at h
      cases hr : resolvePaths reg rest with
      | error e => rw [hr] at h; cases h
      | ok prest =>
        rw [hr] at h
        injection h with h
        rw [← h] at hq
        rcases List.mem_cons.mp hq with h1 | h1
        · rw [h1]
          exact hf
        · exact ih prest hr q h1

theorem mem_pts_of_mem_ts (reg : Registry) (ts : List Target)
    (pts : List (Target × List ArcStep)) (h : resolvePaths reg ts = .ok pts) :
    ∀ t ∈ ts, ∃ steps, (t, steps) ∈ pts := by
  intro t ht
  rw [← resolvePaths_fst reg ts pts h] at ht
  obtain ⟨q, hq, hqt⟩ := List.mem_map.mp ht
  exact ⟨q.2, hqt ▸ hq⟩

theorem findPath_eq_of_noop (reg : Registry) (t : Target) (steps : List ArcStep)
    (h : findPath reg t = some steps) (hc : t.current = t.tgt) : steps = [] := by
  unfold findPath at h
  rw [if_pos hc] at h
  injection h with h
  exact h.symm

theorem findPath_spec (reg : Registry) (t : Target) (steps : List ArcStep)
    (h : findPath reg t = some steps) (hc : ¬ t.current = t.tgt) :
    ∃ last, steps.getLast? = some last ∧ last.dst = t.tgt := by
  unfold findPath at h
  rw [if_neg hc] at h
  split at h
  · simp at h
  · split at h
    · simp at h
    · split at h
      · simp at h
      · split at h
        · rename_i last hgl hdst
          injection h with h
          exact ⟨last, h ▸ hgl, hdst⟩
        · simp at h

theorem stepNodes_elemId (off : Nat) (t : Target) (steps : List ArcStep) :
    ∀ n ∈ stepNodes off t steps, n.elemId = t.id := by
  induction steps generalizing off with
  | nil => intro n hn; cases hn
  | cons a rest ih =>
    intro n hn
    rcases List.mem_cons.mp hn with h | h
    · rw [h]
    · exact ih (off + 1) n h

theorem stepNodes_getLast_dst (t : Target) :
    ∀ (steps : List ArcStep) (off : Nat) (a : ArcStep), steps.getLast? = some a →
      ∃ m, (stepNodes off t steps).getLast? = some m ∧ m.dst = a.dst := by
  intro steps
  induction steps with
  | nil => intro off a h; cases h
  | cons b rest ih =>
    intro off a h
    cases rest with
    | nil =>
      rw [List.getLast?_cons] at h
      injection h with h
      simp only [List.getLast?_nil, Option.getD_none] at h
      refine ⟨⟨off, t.id, b.dst, b.minPhase.rank, b.revertible⟩, rfl, ?_⟩
      rw [← h]
    | cons c rest' =>
      have hne : (c :: rest').getLast? = some a := by
        rw [List.getLast?_cons] at h
        injection h with h
        cases hlast : (c :: rest').getLast? with
        | none => rw [List.getLast?_eq_none_iff] at hlast; cases hlast
        | some x =>
          rw [hlast] at h
          simp only [Option.getD_some] at h
          rw [h]
      obtain ⟨m, hm, hmd⟩ := ih (off + 1) a hne
      refine ⟨m, ?_, hmd⟩
      rw [stepNodes, List.getLast?_cons, hm]
      rfl

theorem applyStage_last : ∀ (C : List PNode) (s : Nat → Status) (e : Nat),
    applyStage s C e = ((C.filter (fun n => n.elemId == e)).getLast?).elim (s e) (·.dst) := by
  intro C
  induction C with
  | nil => intro s e; rfl
  | cons n C ih =>
    intro s e
    show applyStage (applyNode s n) C e = _
    rw [ih, List.filter_cons]
    by_cases hne : n.elemId = e
    · rw [if_pos (by simpa using hne)]
      rw [List.getLast?_cons]
      cases hlast : (C.filter (fun m => m.elemId == e)).getLast? with
      | none => simp [applyNode, hne]
      | some m => rfl
    · rw [if_neg (by simpa using hne)]
      have : applyNode s n e = s e := by
        unfold applyNode
        rw [if_neg (fun h => hne h.symm)]
      rw [this]

theorem runStages_flatten (stgs : List (List PNode)) (s : Nat → Status) :
    runStages stgs s = applyStage s stgs.flatten := by
  rw [runStages, applyStage, List.foldl_flatten]
  rfl

end SchemaChanger

namespace SchemaChanger

theorem sum_indicator_zero : ∀ (ks : List Nat) (j c : Nat), j ∉ ks →
    (ks.map (fun k => if j = k then c else 0)).sum = 0 := by
  intro ks j c
  induction ks with
  | nil => intro _; rfl
  | cons k ks ih =>
    intro hj
    have hjk : j ≠ k := fun h => hj (by rw [h]; exact List.mem_cons_self k ks)
    rw [List.map_cons, List.sum_cons, if_neg hjk,
        ih (fun h => hj (List.mem_cons_of_mem _ h))]

theorem sum_indicator : ∀ (ks : List Nat) (j c : Nat), ks.Nodup → j ∈ ks →
    (ks.map (fun k => if j = k then c else 0)).sum = c := by
  intro ks j c
  induction ks with
  | nil => intro _ hj; cases hj
  | cons k ks ih =>
    intro hnd hj
    rw [List.nodup_cons] at hnd
    by_cases hjk : j = k
    · subst hjk
      rw [List.map_cons, List.sum_cons, if_pos rfl, sum_indicator_zero ks j c hnd.1]
      omega
    · have hjks : j ∈ ks := (List.mem_cons.mp hj).resolve_left hjk
      rw [List.map_cons, List.sum_cons, if_neg hjk, ih hnd.2 hjks, Nat.zero_add]

theorem count_filter_key {α : Type} [DecidableEq α] (f : α → Nat) (l : List α) (k : Nat)
    (a : α) : (l.filter (fun x => f x == k)).count a = if f a = k then l.count a else 0 := by
  by_cases h : f a = k
  · rw [if_pos h]
    exact List.count_filter (by simpa using h)
  · rw [if_neg h, List.count_eq_zero]
    intro hmem
    exact h (by simpa using (List.mem_filter.mp hmem).2)

theorem partition_perm {α : Type} [DecidableEq α] (f : α → Nat) (ks : List Nat) (l : List α)
    (hnd : ks.Nodup) (hall : ∀ x ∈ l, f x ∈ ks) :
    ((ks.map (fun k => l.filter (fun x => f x == k))).flatten).Perm l := by
  rw [List.perm_iff_count]
  intro a
  rw [List.count_flatten, List.map_map]
  have hmap : ks.map (List.count a ∘ fun k => l.filter (fun x => f x == k)) =
      ks.map (fun k => if f a = k then l.count a else 0) := by
    apply List.map_congr_left
    intro k _
    exact count_filter_key f l k a
  rw [hmap]
  by_cases hal : a ∈ l
  · exact sum_indicator ks (f a) (l.count a) hnd (hall a hal)
  · have hz : l.count a = 0 := List.count_eq_zero.mpr hal
    rw [hz]
    apply List.sum_eq_zero
    intro x hx
    obtain ⟨k, _, rfl⟩ := List.mem_map.mp hx
    exact ite_self 0

theorem nodeAt_nid (nodes : List PNode) (v : Nat) (x : PNode)
    (h : nodeAt nodes v = some x) : x.nid = v := by
  have := List.find?_some h
  simpa using this

theorem ordNodes_mem_iff (pts : List (Target × List ArcStep)) (ord : List Nat)
    (hperm : (nodeIds pts).Perm ord) (x : PNode) :
    x ∈ ordNodes (nodesOf pts) ord ↔ x ∈ nodesOf pts := by
  constructor
  · intro hx
    obtain ⟨v, _, hfind⟩ := List.mem_filterMap.mp hx
    exact List.mem_of_find?_eq_some hfind
  · intro hx
    have hnid : x.nid ∈ ord := hperm.mem_iff.mp (List.mem_map_of_mem _ hx)
    exact List.mem_filterMap.mpr ⟨x.nid, hnid, nodeAt_self _ (nodeIds_nodup pts) x hx⟩

theorem ordNodes_nodup (pts : List (Target × List ArcStep)) (ord : List Nat)
    (hord : ord.Nodup) : (ordNodes (nodesOf pts) ord).Nodup := by
  show (ord.filterMap (nodeAt (nodesOf pts))).Pairwise (· ≠ ·)
  rw [List.pairwise_filterMap]
  refine hord.imp ?_
  intro a b hab x hx y hy hxy
  exact hab (by rw [← nodeAt_nid _ a x hx, ← nodeAt_nid _ b y hy, hxy])

theorem ordNodes_perm (pts : List (Target × List ArcStep)) (ord : List Nat)
    (hperm : (nodeIds pts).Perm ord) :
    (ordNodes (nodesOf pts) ord).Perm (nodesOf pts) := by
  apply List.perm_of_nodup_nodup_toFinset_eq
  · exact ordNodes_nodup pts ord (hperm.nodup (nodeIds_nodup pts))
  · exact List.Nodup.of_map _ (nodeIds_nodup pts)
  · ext x
    simp only [List.mem_toFinset]
    exact ordNodes_mem_iff pts ord hperm x

theorem mem_flatten_elemId : ∀ (pts : List (Target × List ArcStep)) (off : Nat) (n : PNode),
    n ∈ ((buildChains off pts).map (·.2)).flatten →
    n.elemId ∈ pts.map (fun p => p.1.id) := by
  intro pts
  induction pts with
  | nil => intro off n hn; cases hn
  | cons p rest ih =>
    intro off n hn
    obtain ⟨t, steps⟩ := p
    simp only [buildChains, List.map_cons, List.flatten_cons] at hn
    rcases List.mem_append.mp hn with h | h
    · rw [List.map_cons, stepNodes_elemId off t steps n h]
      exact List.mem_cons_self _ _
    · rw [List.map_cons]
      exact List.mem_cons_of_mem _ (ih (off + steps.length) n h)

theorem buildChains_filter_chain :
    ∀ (pts : List (Target × List ArcStep)) (off : Nat) (q : Target × List ArcStep),
      q ∈ pts → (pts.map (fun p => p.1.id)).Nodup →
      ∃ off2, (q.1, stepNodes off2 q.1 q.2) ∈ buildChains off pts ∧
        (((buildChains off pts).map (·.2)).flatten).filter
          (fun n => n.elemId == q.1.id) = stepNodes off2 q.1 q.2 := by
  intro pts
  induction pts with
  | nil => intro off q hq _; cases hq
  | cons p rest ih =>
    intro off q hq hnd
    obtain ⟨t, steps⟩ := p
    rw [List.map_cons, List.nodup_cons] at hnd
    simp only [buildChains, List.map_cons, List.flatten_cons, List.filter_append]
    rcases List.mem_cons.mp hq with h | h
    · subst h
      refine ⟨off, List.mem_cons_self _ _, ?_⟩
      have h1 : (stepNodes off t steps).filter (fun n => n.elemId == t.id) =
          stepNodes off t steps :=
        List.filter_eq_self.mpr
          (fun n hn => by simpa using stepNodes_elemId off t steps n hn)
      have h2 : (((buildChains (off + steps.length) rest).map (·.2)).flatten).filter
          (fun n => n.elemId == t.id) = [] := by
        rw [List.filter_eq_nil_iff]
        intro n hn hcon
        have hmem := mem_flatten_elemId rest (off + steps.length) n hn
        have heq : n.elemId = t.id := by simpa using hcon
        exact hnd.1 (heq ▸ hmem)
      show (stepNodes off t steps).filter (fun n => n.elemId == t.id) ++
        (((buildChains (off + steps.length) rest).map (·.2)).flatten).filter
          (fun n => n.elemId == t.id) = stepNodes off t steps
      rw [h1, h2, List.append_nil]
    · have h1 : (stepNodes off t steps).filter (fun n => n.elemId == q.1.id) = [] := by
        rw [List.filter_eq_nil_iff]
        intro n hn hcon
        have he : n.elemId = t.id := stepNodes_elemId off t steps n hn
        have hq1 : q.1.id ∈ rest.map (fun p => p.1.id) :=
          List.mem_map_of_mem (fun p => p.1.id) h
        have heq : n.elemId = q.1.id := by simpa using hcon
        rw [heq] at he
        exact hnd.1 (he ▸ hq1)
      obtain ⟨off2, hin, hoff2⟩ := ih (off + steps.length) q h hnd.2
      rw [h1, hoff2, List.nil_append]
      exact ⟨off2, List.mem_cons_of_mem _ hin, rfl⟩

theorem consecPairs_chain' (E : List (Nat × Nat)) :
    ∀ (l : List PNode), (∀ pr ∈ consecPairs (l.map (·.nid)), pr ∈ E) →
      List.Chain' (fun a b => (a.nid, b.nid) ∈ E) l := by
  intro l
  induction l with
  | nil => intro _; exact List.chain'_nil
  | cons x l ih =>
    intro h
    cases l with
    | nil => exact List.chain'_singleton x
    | cons y l' =>
      rw [List.chain'_cons]
      refine ⟨?_, ?_⟩
      · apply h
        show (x.nid, y.nid) ∈ consecPairs (x.nid :: y.nid :: l'.map (·.nid))
        rw [consecPairs]
        exact List.mem_cons_self _ _
      · apply ih
        intro pr hpr
        apply h
        show pr ∈ consecPairs (x.nid :: y.nid :: l'.map (·.nid))
        rw [consecPairs]
        exact List.mem_cons_of_mem _ hpr

theorem chain_consec_in_edges (pts : List (Target × List ArcStep)) (rules : List DepRule)
    (c : Target × List PNode) (hc : c ∈ chainsOf pts) :
    ∀ pr ∈ consecPairs (c.2.map (·.nid)), pr ∈ graphEdges pts rules := by
  intro pr hpr
  apply List.mem_append.mpr
  refine Or.inl ?_
  rw [intraEdges]
  exact List.mem_flatten.mpr ⟨_, List.mem_map_of_mem _ hc, hpr⟩

theorem pairwise_two_keys (f g : PNode → Nat) :
    ∀ (l : List PNode), l.Pairwise (fun a b => f a < f b) →
      l.Pairwise (fun a b => g a ≤ g b) →
      ∀ x ∈ l, ∀ y ∈ l, g x < g y → f x < f y := by
  intro l
  induction l with
  | nil => intro _ _ x hx; cases hx
  | cons a l ih =>
    intro hf hg x hx y hy hgxy
    rw [List.pairwise_cons] at hf hg
    rcases List.mem_cons.mp hx with hxa | hxl
    · subst hxa
      rcases List.mem_cons.mp hy with hya | hyl
      · subst hya
        omega
      · exact hf.1 y hyl
    · rcases List.mem_cons.mp hy with hya | hyl
      · subst hya
        have := hg.1 x hxl
        omega
      · exact ih hf.2 hg.2 x hxl y hyl hgxy

theorem nodup_pairwise_indexOf : ∀ (l : List Nat), l.Nodup →
    l.Pairwise (fun u v => l.indexOf u < l.indexOf v) := by
  intro l
  induction l with
  | nil => intro _; exact List.Pairwise.nil
  | cons a t ih =>
    intro hnd
    rw [List.nodup_cons] at hnd
    rw [List.pairwise_cons]
    constructor
    · intro b hb
      have hba : b ≠ a := fun h => hnd.1 (h ▸ hb)
      rw [List.indexOf_cons_self, List.indexOf_cons_ne _ (fun h => hba h.symm)]
      exact Nat.succ_pos _
    · refine List.Pairwise.imp_of_mem ?_ (ih hnd.2)
      intro x y hx hy hxy
      have hxa : x ≠ a := fun h => hnd.1 (h ▸ hx)
      have hya : y ≠ a := fun h => hnd.1 (h ▸ hy)
      rw [List.indexOf_cons_ne _ (fun h => hxa h.symm),
          List.indexOf_cons_ne _ (fun h => hya h.symm)]
      exact Nat.succ_lt_succ hxy

end SchemaChanger

namespace SchemaChanger

theorem stages_filter_eq_chain (pts : List (Target × List ArcStep)) (rules : List DepRule)
    (ord : List Nat) (htopo : topoSort (graphEdges pts rules) (nodeIds pts) = some ord)
    (hnd : (pts.map (fun p => p.1.id)).Nodup) (q : Target × List ArcStep) (hq : q ∈ pts) :
    ∃ off2, ((stagesOf pts rules ord).flatten).filter (fun n => n.elemId == q.1.id) =
      stepNodes off2 q.1 q.2 := by
  obtain ⟨off2, hcmem, hchainEq⟩ := buildChains_filter_chain pts 0 q hq hnd
  have hchainEq' : (nodesOf pts).filter (fun n => n.elemId == q.1.id) =
      stepNodes off2 q.1 q.2 := hchainEq
  refine ⟨off2, ?_⟩
  have hperm : (nodeIds pts).Perm ord := topoAux_perm _ _ _ _ htopo
  have hordnd : ord.Nodup := hperm.nodup (nodeIds_nodup pts)
  have hbefore := plan_edge_before pts rules ord htopo
  have hmemE : ∀ e ∈ graphEdges pts rules, e.1 ∈ ord ∧ e.2 ∈ ord := by
    intro e' he'
    have hm' := graphEdges_mem_ids pts rules e' he'
    exact ⟨hperm.mem_iff.mp hm'.1, hperm.mem_iff.mp hm'.2⟩
  have hchainE : List.Chain' (fun a b => (a.nid, b.nid) ∈ graphEdges pts rules)
      (stepNodes off2 q.1 q.2) :=
    consecPairs_chain' _ _
      (chain_consec_in_edges pts rules (q.1, stepNodes off2 q.1 q.2) hcmem)
  haveI : IsTrans PNode (fun a b => ord.indexOf a.nid < ord.indexOf b.nid) :=
    ⟨fun _ _ _ hab hbc => lt_trans hab hbc⟩
  have hchainKey : (stepNodes off2 q.1 q.2).Pairwise
      (fun a b => ord.indexOf a.nid < ord.indexOf b.nid) := by
    rw [← List.chain'_iff_pairwise]
    refine List.Chain'.imp ?_ hchainE
    intro a b hab
    exact hbefore (a.nid, b.nid) hab
  haveI : IsTrans PNode
      (fun a b => phaseOfL (phlOf pts rules ord) a.nid ≤ phaseOfL (phlOf pts rules ord) b.nid) :=
    ⟨fun _ _ _ hab hbc => le_trans hab hbc⟩
  have hchainPh : (stepNodes off2 q.1 q.2).Pairwise
      (fun a b => phaseOfL (phlOf pts rules ord) a.nid ≤
        phaseOfL (phlOf pts rules ord) b.nid) := by
    rw [← List.chain'_iff_pairwise]
    refine List.Chain'.imp ?_ hchainE
    intro a b hab
    exact phase_le_of_edge (graphEdges pts rules) (minPhOf (nodesOf pts)) ord hbefore hmemE
      (a.nid, b.nid) hab
  have hordNodesKey : (ordNodes (nodesOf pts) ord).Pairwise
      (fun a b => ord.indexOf a.nid < ord.indexOf b.nid) := by
    rw [ordNodes, List.pairwise_filterMap]
    refine (nodup_pairwise_indexOf ord hordnd).imp ?_
    intro u v huv x hx y hy
    rw [nodeAt_nid _ u x hx, nodeAt_nid _ v y hy]
    exact huv
  have hCperm : (((presentPhases (phlOf pts rules ord)).map
      (fun k => (ordNodes (nodesOf pts) ord).filter
        (fun n => phaseOfL (phlOf pts rules ord) n.nid == k))).flatten).Perm
      (ordNodes (nodesOf pts) ord) := by
    apply partition_perm
    · exact (presentPhases_sorted _).imp (fun h => Nat.ne_of_lt h)
    · intro x hx
      obtain ⟨v, hv, hfind⟩ := List.mem_filterMap.mp hx
      have hxv : x.nid = v := nodeAt_nid _ v x hfind
      have hxk : x.nid ∈ (phlOf pts rules ord).map (·.1) := by
        rw [phlOf_keys, hxv]
        exact hv
      exact phase_mem_presentPhases pts rules ord x.nid hxk
  have hFperm : (((stagesOf pts rules ord).flatten).filter
      (fun n => n.elemId == q.1.id)).Perm (stepNodes off2 q.1 q.2) := by
    have hh := (hCperm.trans (ordNodes_perm pts ord hperm)).filter
      (fun n => n.elemId == q.1.id)
    rw [hchainEq'] at hh
    exact hh
  have hCfP : (((stagesOf pts rules ord).flatten).filter
      (fun n => n.elemId == q.1.id)).Pairwise
      (fun a b => ord.indexOf a.nid < ord.indexOf b.nid) := by
    rw [List.filter_flatten, List.pairwise_flatten]
    constructor
    · intro blk hblk
      obtain ⟨stg, hstg, rfl⟩ := List.mem_map.mp hblk
      obtain ⟨k, _, rfl⟩ := List.mem_map.mp hstg
      refine List.Pairwise.sublist ?_ hordNodesKey
      exact (List.filter_sublist _).trans (List.filter_sublist _)
    · rw [show stagesOf pts rules ord = (presentPhases (phlOf pts rules ord)).map
        (fun k => (ordNodes (nodesOf pts) ord).filter
          (fun n => phaseOfL (phlOf pts rules ord) n.nid == k)) from rfl,
        List.map_map, List.pairwise_map]
      refine (presentPhases_sorted _).imp ?_
      intro k k' hkk' x hx y hy
      have hx1 := List.mem_filter.mp hx
      have hx2 := List.mem_filter.mp hx1.1
      have hy1 := List.mem_filter.mp hy
      have hy2 := List.mem_filter.mp hy1.1
      have hpx : phaseOfL (phlOf pts rules ord) x.nid = k := by simpa using hx2.2
      have hpy : phaseOfL (phlOf pts rules ord) y.nid = k' := by simpa using hy2.2
      have hxch : x ∈ stepNodes off2 q.1 q.2 := by
        rw [← hchainEq']
        exact List.mem_filter.mpr ⟨(ordNodes_perm pts ord hperm).mem_iff.mp hx2.1, hx1.2⟩
      have hych : y ∈ stepNodes off2 q.1 q.2 := by
        rw [← hchainEq']
        exact List.mem_filter.mpr ⟨(ordNodes_perm pts ord hperm).mem_iff.mp hy2.1, hy1.2⟩
      refine pairwise_two_keys (fun n => ord.indexOf n.nid)
        (fun n => phaseOfL (phlOf pts rules ord) n.nid)
        (stepNodes off2 q.1 q.2) hchainKey hchainPh x hxch y hych ?_
      show phaseOfL (phlOf pts rules ord) x.nid < phaseOfL (phlOf pts rules ord) y.nid
      rw [hpx, hpy]
      exact hkk'
  haveI : IsAntisymm PNode (fun a b => ord.indexOf a.nid < ord.indexOf b.nid) :=
    ⟨fun _ _ h1 h2 => absurd (lt_trans h1 h2) (lt_irrefl _)⟩
  exact List.eq_of_perm_of_sorted hFperm hCfP hchainKey

theorem fullrun_reaches_targets (reg : Registry) (rules : List DepRule) (ts : List Target)
    (p : Plan) (h : plan reg rules ts = .ok p) (hids : (ts.map (·.id)).Nodup) :
    ∀ t ∈ ts, ∀ s : Nat → Status,
      runStages p.stages s t.id = if t.current = t.tgt then s t.id else t.tgt := by
  obtain ⟨pts, ord, hres, htopo, rfl⟩ := plan_ok_inv reg rules ts p h
  intro t ht s
  have hndpts : (pts.map (fun q => q.1.id)).Nodup := by
    have hfst := resolvePaths_fst reg ts pts hres
    have hmm : pts.map (fun q => q.1.id) = (pts.map (·.1)).map (·.id) := by
      rw [List.map_map]
      rfl
    rw [hmm, hfst]
    exact hids
  obtain ⟨steps, hmem⟩ := mem_pts_of_mem_ts reg ts pts hres t ht
  have hfp : findPath reg t = some steps :=
    resolvePaths_mem_findPath reg ts pts hres (t, steps) hmem
  obtain ⟨off2, hfilter⟩ := stages_filter_eq_chain pts rules ord htopo hndpts (t, steps) hmem
  have hfilter' : ((stagesOf pts rules ord).flatten).filter (fun n => n.elemId == t.id) =
      stepNodes off2 t steps := hfilter
  show runStages (stagesOf pts rules ord) s t.id = _
  rw [runStages_flatten, applyStage_last, hfilter']
  by_cases hc : t.current = t.tgt
  · rw [if_pos hc]
    have hsteps : steps = [] := findPath_eq_of_noop reg t steps hfp hc
    subst hsteps
    rfl
  · rw [if_neg hc]
    obtain ⟨last, hlast, hdst⟩ := findPath_spec reg t steps hfp hc
    obtain ⟨m, hm, hmd⟩ := stepNodes_getLast_dst t steps off2 last hlast
    rw [hm]
    show m.dst = t.tgt
    rw [hmd, hdst]

/-- C4: for every target set whose planned path consists only of revertible
operations, executing the plan forward through any prefix of stages
strictly before the point of no return and then executing the rollback plan
— built by re-invoking the Plan Builder on the reversed target set, every
target flipped PUBLIC ↔ ABSENT with transient statuses resolved to their
rollback-safe counterpart — returns every element to its original current
status. -/
theorem rollback_symmetry (reg : Registry) (rules : List DepRule) (ts : List Target)
    (fp rp : Plan) (j : Nat) (s0 : Nat → Status)
    (hplan : plan reg rules ts = .ok fp)
    (hids : (ts.map (·.id)).Nodup)
    (hs0 : ∀ t ∈ ts, s0 t.id = t.current)
    (hpole : ∀ t ∈ ts, t.current = flipTarget t.tgt)
    (hrev : allRevertible fp)
    (hj : j ≤ pointOfNoReturn fp)
    (hrb : plan reg rules (rollbackTargets ts (runStages (fp.stages.take j) s0)) = .ok rp) :
    ∀ t ∈ ts, runStages rp.stages (runStages (fp.stages.take j) s0) t.id = t.current := by
  intro t ht
  have hrbids : ((rollbackTargets ts (runStages (fp.stages.take j) s0)).map (·.id)).Nodup := by
    rw [rollbackTargets, List.map_map]
    exact hids
  have hmem_rb : (⟨t.id, t.kind, runStages (fp.stages.take j) s0 t.id,
      flipTarget t.tgt⟩ : Target) ∈ rollbackTargets ts (runStages (fp.stages.take j) s0) :=
    List.mem_map_of_mem _ ht
  have hrun := fullrun_reaches_targets reg rules _ rp hrb hrbids
    ⟨t.id, t.kind, runStages (fp.stages.take j) s0 t.id, flipTarget t.tgt⟩ hmem_rb
    (runStages (fp.stages.take j) s0)
  rw [hpole t ht]
  by_cases hcase : runStages (fp.stages.take j) s0 t.id = flipTarget t.tgt
  · rw [hrun, if_pos hcase]
    exact hcase
  · rw [hrun, if_neg hcase]

theorem rollback_symmetry_witness :
    runStages wRbPlan.stages (runStages (wPlanned.stages.take 1) wS0) 1 = Status.ABSENT ∧
    runStages wRbPlan.stages (runStages (wPlanned.stages.take 1) wS0) 2 = Status.PUBLIC :=
  ⟨rollback_symmetry wReg [] wTs wPlanned wRbPlan 1 wS0 rfl (by decide) (by decide)
      (by decide) (by decide) (by decide) rfl ⟨1, 0, .ABSENT, .PUBLIC⟩ (by decide),
   rollback_symmetry wReg [] wTs wPlanned wRbPlan 1 wS0 rfl (by decide) (by decide)
      (by decide) (by decide) (by decide) rfl ⟨2, 0, .PUBLIC, .ABSENT⟩ (by decide)⟩

end SchemaChanger
